import Mathlib

/-!
# ai-commits: a shallow embedding of the commit-message pipeline

The Go program reads the staged state of a git working tree, builds a prompt,
posts it to a text-generation endpoint, shows the answer and optionally
commits with it.  This file embeds the functions of

* `internal/git/git.go`  (`GetStagedFiles`, `GetUnstagedFiles`, `GetDiff`, `Commit`),
* `config/config.go`     (`MaxDiffSize`, `GetMaxDiffSize`, `GetAPIKey`),
* `internal/ai/ai.go`    (`BuildPrompt`, `makeGeminiRequest`, `CallAI`),
* `internal/ui/ui.go`    (the two loading models, `withLoadingInternal`, ...),
* `cmd/root.go`          (`Root` and its helpers)

and proves properties of them.

Conventions.  A Go `string` is a sequence of bytes, so `GoString` is a list of
byte values (naturals below 256); `len` is `List.length` and `s[:n]` is
`List.take n`.  Everything the program obtains from outside (the git binary,
the environment, the terminal, the HTTP endpoint, the JSON decoder) is a field
of `Env`; what the program does to the outside is recorded as a list of
`Event`s.  `os.Exit` ends a run: a computation either returns a value or exits.
-/

namespace AiCommits

/-! ## Strings -/

/-- A Go string: its bytes, in order. -/
abbrev GoString := List Nat

/-- The value `utf8.RuneError` (U+FFFD). -/
def RuneError : Nat := 0xFFFD

/-- The UTF-8 encoding of a code point, as `utf8.AppendRune` writes it
(surrogates and values above U+10FFFF are written as `RuneError`). -/
def encodeRune (r : Nat) : GoString :=
  if r < 0x80 then [r]
  else if r < 0x800 then [0xC0 + r / 64, 0x80 + r % 64]
  else if 0xD800 ≤ r ∧ r ≤ 0xDFFF ∨ 0x10FFFF < r then [0xEF, 0xBF, 0xBD]
  else if r < 0x10000 then [0xE0 + r / 4096, 0x80 + r / 64 % 64, 0x80 + r % 64]
  else [0xF0 + r / 262144, 0x80 + r / 4096 % 64, 0x80 + r / 64 % 64, 0x80 + r % 64]

/-- The bytes of a string literal of the source (source files are UTF-8). -/
def str (s : String) : GoString :=
  s.toList.flatMap fun c => encodeRune c.toNat

/-- `utf8.DecodeRuneInString`: the first code point of `s` and its width in
bytes; `(RuneError, 0)` for the empty string and `(RuneError, 1)` for a byte
that starts no well-formed encoding. -/
def DecodeRuneInString : GoString → Nat × Nat
  | [] => (RuneError, 0)
  | s0 :: rest =>
    if s0 < 0x80 then (s0, 1)
    else if s0 < 0xC2 ∨ 0xF4 < s0 then (RuneError, 1)
    else if s0 < 0xE0 then
      match rest with
      | s1 :: _ =>
        if s1 < 0x80 ∨ 0xBF < s1 then (RuneError, 1)
        else ((s0 - 0xC0) * 64 + (s1 - 0x80), 2)
      | _ => (RuneError, 1)
    else if s0 < 0xF0 then
      let lo := if s0 = 0xE0 then 0xA0 else 0x80
      let hi := if s0 = 0xED then 0x9F else 0xBF
      match rest with
      | s1 :: s2 :: _ =>
        if s1 < lo ∨ hi < s1 then (RuneError, 1)
        else if s2 < 0x80 ∨ 0xBF < s2 then (RuneError, 1)
        else ((s0 - 0xE0) * 4096 + (s1 - 0x80) * 64 + (s2 - 0x80), 3)
      | _ => (RuneError, 1)
    else
      let lo := if s0 = 0xF0 then 0x90 else 0x80
      let hi := if s0 = 0xF4 then 0x8F else 0xBF
      match rest with
      | s1 :: s2 :: s3 :: _ =>
        if s1 < lo ∨ hi < s1 then (RuneError, 1)
        else if s2 < 0x80 ∨ 0xBF < s2 then (RuneError, 1)
        else if s3 < 0x80 ∨ 0xBF < s3 then (RuneError, 1)
        else ((s0 - 0xF0) * 262144 + (s1 - 0x80) * 4096 + (s2 - 0x80) * 64 + (s3 - 0x80), 4)
      | _ => (RuneError, 1)

/-- `utf8.RuneStart`: the byte is not a continuation byte `10xxxxxx`. -/
def RuneStart (b : Nat) : Bool := !(0x80 ≤ b && b < 0xC0)

/-- The backward scan of `utf8.DecodeLastRuneInString`:
`for start--; start >= lim; start-- { if RuneStart(s[start]) { break } }`,
entered after the first `start--`; `n` bounds the number of iterations. -/
def scanBack (s : GoString) (lim : Int) : Nat → Int → Int
  | 0, start => start
  | n + 1, start =>
    if lim ≤ start then
      if RuneStart (s.getD start.toNat 0) then start
      else scanBack s lim n (start - 1)
    else start

/-- `utf8.DecodeLastRuneInString`: the last code point of `s` and its width. -/
def DecodeLastRuneInString (s : GoString) : Nat × Nat :=
  let e := s.length
  if e = 0 then (RuneError, 0)
  else
    let r := s.getD (e - 1) 0
    if r < 0x80 then (r, 1)
    else
      let lim : Int := if (e : Int) - 4 < 0 then 0 else (e : Int) - 4
      let start := scanBack s lim 4 ((e : Int) - 2)
      let start := if start < 0 then 0 else start
      let d := DecodeRuneInString (s.drop start.toNat)
      if start.toNat + d.2 ≠ e then (RuneError, 1) else d

/-- `unicode.IsSpace`: the code points with the Unicode White_Space property. -/
def IsSpace (r : Nat) : Bool :=
  if r ≤ 0xFF then
    r = 0x09 || r = 0x0A || r = 0x0B || r = 0x0C || r = 0x0D || r = 0x20 ||
      r = 0x85 || r = 0xA0
  else
    r = 0x1680 || (0x2000 ≤ r && r ≤ 0x200A) || r = 0x2028 || r = 0x2029 ||
      r = 0x202F || r = 0x205F || r = 0x3000

/-- The loop of `strings.TrimLeftFunc`: drop leading code points satisfying `f`.
The first argument bounds the number of iterations (`s.length` is enough). -/
def trimLeftLoop (f : Nat → Bool) : Nat → GoString → GoString
  | 0, s => s
  | n + 1, s =>
    match s with
    | [] => []
    | _ :: _ =>
      let d := DecodeRuneInString s
      if f d.1 then trimLeftLoop f n (s.drop d.2) else s

/-- `strings.TrimLeftFunc`. -/
def TrimLeftFunc (s : GoString) (f : Nat → Bool) : GoString :=
  trimLeftLoop f s.length s

/-- The loop of `strings.TrimRightFunc`: drop trailing code points satisfying
`f`, decoding backwards. -/
def trimRightLoop (f : Nat → Bool) : Nat → GoString → GoString
  | 0, s => s
  | n + 1, s =>
    match s with
    | [] => []
    | _ :: _ =>
      let d := DecodeLastRuneInString s
      if f d.1 then trimRightLoop f n (s.take (s.length - d.2)) else s

/-- `strings.TrimRightFunc`. -/
def TrimRightFunc (s : GoString) (f : Nat → Bool) : GoString :=
  trimRightLoop f s.length s

/-- `strings.TrimFunc`. -/
def TrimFunc (s : GoString) (f : Nat → Bool) : GoString :=
  TrimRightFunc (TrimLeftFunc s f) f

/-- `strings.TrimSpace`: `s` without its leading and trailing white space, as
defined by Unicode. -/
def TrimSpace (s : GoString) : GoString := TrimFunc s IsSpace

/-- `strings.Split(s, sep)` for a separator of one byte (the program only
splits on a newline): the substrings between the separators; a string without
separator, the empty one included, gives one element. -/
def Split : GoString → Nat → List GoString
  | [], _ => [[]]
  | c :: s, sep =>
    if c = sep then [] :: Split s sep
    else
      match Split s sep with
      | [] => [[c]]
      | seg :: segs => (c :: seg) :: segs

/-- The code points of a string in order, as `for _, r := range s` yields
them.  The first argument bounds the number of iterations. -/
def runesLoop : Nat → GoString → List Nat
  | 0, _ => []
  | n + 1, s =>
    match s with
    | [] => []
    | _ :: _ =>
      let d := DecodeRuneInString s
      d.1 :: runesLoop n (s.drop d.2)

/-- The code points of a string. -/
def runes (s : GoString) : List Nat := runesLoop s.length s

/-! ## Errors, events and the outside world -/

/-- An operand of a formatting call that is not an error value. -/
inductive Value where
  | int (n : Int)
  | string (s : GoString)
  deriving DecidableEq, Repr

/-- A non-nil Go `error`. -/
inductive Error where
  /-- The value of `errors.New(text)`. -/
  | new (text : GoString)
  /-- An error made outside this repository (os/exec, net/http, io, json, the terminal libraries). -/
  | external (id : Nat)
  /-- The value of `fmt.Errorf(format, args...)` without `%w`. -/
  | errorf (format : GoString) (args : List Value)
  /-- The value of `fmt.Errorf(format, inner)` where the format wraps `inner` with `%w`. -/
  | wrap (format : GoString) (inner : Error)
  deriving DecidableEq, Repr

/-- An operand of `fmt.Printf`. -/
inductive Operand where
  | val (v : Value)
  | err (e : Error)
  deriving DecidableEq, Repr

/-- One HTTP request as `makeGeminiRequest` builds it. -/
structure HttpRequest where
  method : GoString
  url : GoString
  headers : List (GoString × GoString)
  body : GoString
  deriving DecidableEq, Repr

/-- What the program does to the outside, in order. -/
inductive Event where
  /-- An external command was run (`exec.Command(argv...)` then `Output` or `Run`). -/
  | exec (argv : List GoString)
  /-- The call `fmt.Printf(format, args...)`. -/
  | printf (format : GoString) (args : List Operand)
  /-- The call `fmt.Println(args...)`. -/
  | println (args : List GoString)
  /-- The builtin `println(args...)`. -/
  | builtinPrintln (args : List GoString)
  /-- The form `huh.NewInput().Title(title)` was run. -/
  | input (title : GoString)
  /-- The form `huh.NewConfirm().Title(title)` was run. -/
  | confirm (title : GoString)
  /-- A `tea.Program` was run; `fast` tells which model it was given. -/
  | teaRun (fast : Bool)
  /-- The request was sent with `client.Do`. -/
  | http (req : HttpRequest)
  /-- The function `git.Commit` was entered with this message (a ghost event:
  it marks the call, nothing is written or run). -/
  | commitCalled (message : GoString)
  deriving DecidableEq, Repr

/-- The events of a run so far. -/
abbrev Trace := List Event

/-- The result of running an external command: what the call site captures
of its output, and the error of `Output`/`Run`. -/
structure ExecResult where
  output : GoString
  err : Option Error
  deriving DecidableEq, Repr

/-- A key of `tea.KeyMsg`; only Ctrl-C is told apart. -/
inductive KeyType where
  | KeyCtrlC
  | other (code : Nat)
  deriving DecidableEq, Repr

/-- The messages that reach `Update` from outside the program's own callback. -/
inductive ExtMsg where
  /-- A key press, `tea.KeyMsg`. -/
  | key (type : KeyType)
  /-- The message `tea.WindowSizeMsg`, with its width and height. -/
  | windowSize (width height : Int)
  /-- The message `spinner.TickMsg`, with an encoding of its contents. -/
  | spinnerTick (payload : Nat)
  /-- The message `tickMsg` of `tickCmd`. -/
  | tick
  /-- The message `progress.FrameMsg`, with an encoding of its contents. -/
  | frame (payload : Nat)
  /-- Any other message of the runtime. -/
  | other (code : Nat)
  deriving DecidableEq, Repr

/-- What happened during one `tea.Program.Run`: whether the runtime got as
far as `Init` (it does not when the terminal cannot be set up), the messages
handed to `Update` before the callback's own message, whether the callback's
message (`errMsg` or `successMsg`) was handed to `Update` at all before `Run`
returned, the messages handed to `Update` after it, and the error of `Run`. -/
structure TeaRun where
  started : Bool
  before : List ExtMsg
  delivered : Bool
  after : List ExtMsg
  runErr : Option Error
  deriving DecidableEq, Repr

/-- The body of a `GeminiRequest`. -/
structure Part where
  Text : GoString
  deriving DecidableEq, Repr

/-- One entry of `GeminiRequest.Contents`. -/
structure Content where
  Parts : List Part
  deriving DecidableEq, Repr

/-- The struct `GeminiRequest`. -/
structure GeminiRequest where
  Contents : List Content
  deriving DecidableEq, Repr

/-- One element of `GeminiResponse.Candidates`: the texts of
`Content.Parts`, in order. -/
structure Candidate where
  Parts : List GoString
  deriving DecidableEq, Repr

/-- The struct `GeminiResponse`. -/
structure GeminiResponse where
  Candidates : List Candidate
  deriving DecidableEq, Repr

/-- The answer of `client.Do` followed by `io.ReadAll(resp.Body)`. -/
structure HttpResult where
  doErr : Option Error
  StatusCode : Int
  body : GoString
  readErr : Option Error
  deriving DecidableEq, Repr

/-- A command of the terminal runtime, `tea.Cmd`. -/
inductive Cmd where
  /-- The nil command. -/
  | none
  /-- The command `tea.Quit`. -/
  | Quit
  /-- The command of `tickCmd()`. -/
  | tickCmd
  /-- The closure of `Init` that runs the callback. -/
  | runCallback
  /-- A command returned by a widget of the bubbles library. -/
  | widget (code : Nat)
  /-- The command `tea.Batch(a, b)`. -/
  | Batch (a b : Cmd)
  deriving DecidableEq, Repr

/-- The state of a `spinner.Model`, encoded. -/
structure SpinnerModel where
  code : Nat
  deriving DecidableEq, Repr

/-- The state of a `progress.Model`: its exported field `Width` and an
encoding of the rest. -/
structure ProgressModel where
  Width : Int
  code : Nat
  deriving DecidableEq, Repr

/-- Everything the program gets from outside.  The answers may depend on
the events so far. -/
structure Env where
  /-- Set when `flag.Parse` ends the process itself (a bad flag, `-h`): the exit code. -/
  flagExit : Option Int
  /-- The value stored for `-fast` by `flag.Parse`. -/
  fastFlag : Bool
  /-- The function `os.Getenv`. -/
  getenv : GoString → GoString
  /-- The run of an external command. -/
  exec : Trace → List GoString → ExecResult
  /-- The run of the input form: the text entered and the error of `Run`. -/
  input : Trace → GoString × Option Error
  /-- The run of the confirm form: the choice and the error of `Run`. -/
  confirm : Trace → Bool × Option Error
  /-- The run of a `tea.Program`. -/
  tea : Trace → TeaRun
  /-- The function `json.Marshal` on a request. -/
  marshal : GeminiRequest → GoString × Option Error
  /-- The error of `http.NewRequestWithContext`. -/
  newRequest : HttpRequest → Option Error
  /-- The functions `client.Do` and `io.ReadAll`. -/
  httpDo : Trace → HttpRequest → HttpResult
  /-- The function `json.Unmarshal` into a `GeminiResponse`. -/
  unmarshal : GoString → GeminiResponse × Option Error
  /-- The spinner of `spinner.New()` with the style set in `newLoadingModel`. -/
  spinnerNew : SpinnerModel
  /-- The method `spinner.Model.Update`. -/
  spinnerUpdate : SpinnerModel → Nat → SpinnerModel × Cmd
  /-- The bar of `progress.New(...)` in `newProgressModel`. -/
  progressNew : ProgressModel
  /-- The test `m.progress.Percent() >= 0.9`. -/
  progressAtLeast09 : ProgressModel → Bool
  /-- The method `SetPercent(p)`, for `p = 1.0` (`true`) and `p = 0.0` (`false`). -/
  progressSetPercent : ProgressModel → Bool → ProgressModel × Cmd
  /-- The method `IncrPercent(0.1)`. -/
  progressIncrPercent : ProgressModel → ProgressModel × Cmd
  /-- The method `progress.Model.Update`. -/
  progressUpdate : ProgressModel → Nat → ProgressModel × Cmd

/-- How a computation ends: it returns a value, or the process exits. -/
inductive Outcome (α : Type) where
  | ret (value : α) (trace : Trace)
  | exit (code : Int) (trace : Trace)
  deriving DecidableEq, Repr

/-- The events of an outcome. -/
def Outcome.events {α : Type} : Outcome α → Trace
  | .ret _ t => t
  | .exit _ t => t

/-- A computation of the program: from the outside world and the events so
far to an outcome. -/
def Prog (α : Type) : Type := Env → Trace → Outcome α

/-- Return a value. -/
def Prog.pure {α : Type} (a : α) : Prog α := fun _ t => .ret a t

/-- Sequencing; an exit ends the whole computation. -/
def Prog.bind {α β : Type} (m : Prog α) (f : α → Prog β) : Prog β := fun env t =>
  match m env t with
  | .ret a t1 => f a env t1
  | .exit c t1 => .exit c t1

instance : Monad Prog where
  pure := Prog.pure
  bind := Prog.bind

/-- Record an event. -/
def emit (e : Event) : Prog Unit := fun _ t => .ret () (t ++ [e])

/-- The call `os.Exit(code)`. -/
def osExit {α : Type} (code : Int) : Prog α := fun _ t => .exit code t

/-- Read the outside world. -/
def getEnv : Prog Env := fun env t => .ret env t

/-- Run an external command: `exec.Command(argv...)` followed by `Output()`
or `Run()`. -/
def runCommand (argv : List GoString) : Prog ExecResult := fun env t =>
  .ret (env.exec t argv) (t ++ [.exec argv])

/-! ## `config/config.go` -/

/-- The constant `MaxDiffSize`. -/
def MaxDiffSize : Nat := 10000

/-- The constant `EnvKeyGeminiAPI`. -/
def EnvKeyGeminiAPI : GoString := str "GEMINI_API_KEY"

/-- The function `config.GetAPIKey`. -/
def GetAPIKey : Prog GoString := fun env t => .ret (env.getenv EnvKeyGeminiAPI) t

/-- The function `config.GetMaxDiffSize`. -/
def GetMaxDiffSize : Nat := MaxDiffSize

/-! ## `internal/git/git.go` -/

/-- The error `git.ErrNoStagedFiles`. -/
def ErrNoStagedFiles : Error := .new (str "no staged files")

/-- The error `git.ErrNoUnstagedFiles`. -/
def ErrNoUnstagedFiles : Error := .new (str "no unstaged files")

/-- The error `git.ErrEmptyCommitMessage`. -/
def ErrEmptyCommitMessage : Error := .new (str "commit message cannot be empty")

/-- The command line of `GetStagedFiles`. -/
def stagedArgv : List GoString := [str "git", str "diff", str "--cached", str "--name-only"]

/-- The command line of `GetUnstagedFiles`. -/
def unstagedArgv : List GoString := [str "git", str "diff", str "--name-only"]

/-- The command line of `GetDiff`. -/
def diffArgv : List GoString := [str "git", str "diff", str "--cached"]

/-- The command line of `Commit`. -/
def commitArgv (message : GoString) : List GoString :=
  [str "git", str "commit", str "-m", message]

/-- The function `git.GetStagedFiles` (a nil slice is the empty list). -/
def GetStagedFiles : Prog (List GoString × Option Error) := do
  let r ← runCommand stagedArgv
  match r.err with
  | some err => return ([], some err)
  | none =>
    let trimmed := TrimSpace r.output
    if trimmed = [] then
      return ([], some ErrNoStagedFiles)
    else
      let files := Split trimmed 10
      return (files, none)

/-- The function `git.GetUnstagedFiles`. -/
def GetUnstagedFiles : Prog (List GoString × Option Error) := do
  let r ← runCommand unstagedArgv
  match r.err with
  | some err => return ([], some err)
  | none =>
    let trimmed := TrimSpace r.output
    if trimmed = [] then
      return ([], some ErrNoUnstagedFiles)
    else
      let files := Split trimmed 10
      return (files, none)

/-- The function `git.GetDiff`: standard output and standard error of the
command go to one buffer. -/
def GetDiff : Prog (GoString × Option Error) := do
  let r ← runCommand diffArgv
  match r.err with
  | some err => return ([], some err)
  | none => return (r.output, none)

/-- The function `git.Commit`. -/
def Commit (message : GoString) : Prog (Option Error) := do
  emit (.commitCalled message)
  if message = [] then
    return some ErrEmptyCommitMessage
  else
    let r ← runCommand (commitArgv message)
    match r.err with
    | some err => return some err
    | none => return none

/-! ## `internal/ai/ai.go` -/

/-- The constant `geminiEndpoint`. -/
def geminiEndpoint : GoString :=
  str "https://generativelanguage.googleapis.com/v1beta/models/gemini-2.0-flash:generateContent"

/-- The text put by `fmt.Sprintf` where operands are left over: `%!(EXTRA string=a, string=b)`. -/
def sprintfExtra (args : List GoString) : GoString :=
  if args = [] then []
  else str "%!(EXTRA " ++ (str ", ").intercalate (args.map fun a => str "string=" ++ a) ++ str ")"

/-- The function `fmt.Sprintf` on string operands, for the formats made of
plain text, the verbs `%s` and `%v` without flags, and `%%`; `none` for any
other format.  A string operand is written as it is; a verb without operand
writes `%!s(MISSING)`, a lone `%` at the end `%!(NOVERB)`. -/
def Sprintf : GoString → List GoString → Option GoString
  | [], args => some (sprintfExtra args)
  | c :: rest, args =>
    if c = 37 then
      match rest with
      | [] => some (str "%!(NOVERB)")
      | v :: rest1 =>
        if v = 115 ∨ v = 118 then
          match args with
          | a :: args1 => (Sprintf rest1 args1).map fun out => a ++ out
          | [] => (Sprintf rest1 []).map fun out => str "%!" ++ [v] ++ str "(MISSING)" ++ out
        else if v = 37 then (Sprintf rest1 args).map fun out => 37 :: out
        else none
    else (Sprintf rest args).map fun out => c :: out

/-- The raw string literal of `BuildPrompt`, byte for byte. -/
def promptTemplate : GoString :=
  str ("You are an expert commit message generator that strictly follows the Conventional Commit format (e.g., feat:, fix:, chore:, etc.).\n" ++
    "\n" ++
    "The user will provide a description of what they did in Turkish, and a partial code diff will also be included.\n" ++
    "\n" ++
    "Your job is to write a single, short, clear, and descriptive commit message in English, starting with the proper Conventional Commit prefix (like fix:, feat:, chore:).\n" ++
    "\n" ++
    "The entire commit message must be in lowercase letters except for acronyms or proper nouns. This includes the commit type prefix and the description. For example:\n" ++
    "\n" ++
    "- chore: add spacing for readability in test.py\n" ++
    "- fix: correct typo in login flow\n" ++
    "- feat: improve UI responsiveness\n" ++
    "\n" ++
    "Do not include any explanation, do not add any extra text â€” return only the commit message.\n" ++
    "\n" ++
    "User explanation (in Turkish):\n" ++
    "\"%s\"\n" ++
    "\n" ++
    "Code diff (partial):\n" ++
    "%s\n")

/-- The function `ai.BuildPrompt` (the format lies in the part of
`fmt.Sprintf` that is modelled). -/
def BuildPrompt (explanation diff : GoString) : GoString :=
  (Sprintf promptTemplate [explanation, diff]).getD []

/-- The call `client.Do(req)` and the read of the body. -/
def httpDo (req : HttpRequest) : Prog HttpResult := fun env t =>
  .ret (env.httpDo t req) (t ++ [.http req])

/-- The function `ai.makeGeminiRequest`. -/
def makeGeminiRequest (prompt : GoString) : Prog (GoString × Option Error) := do
  let apiKey ← GetAPIKey
  if apiKey = [] then
    return ([], some (.errorf (str "GEMINI_API_KEY environment variable is not set") []))
  else
    let env ← getEnv
    let reqBody : GeminiRequest := { Contents := [{ Parts := [{ Text := prompt }] }] }
    let marshalled := env.marshal reqBody
    match marshalled.2 with
    | some err => return ([], some (.wrap (str "error marshaling request: %w") err))
    | none =>
      let req : HttpRequest :=
        { method := str "POST", url := geminiEndpoint, headers := [], body := marshalled.1 }
      match env.newRequest req with
      | some err => return ([], some (.wrap (str "error creating request: %w") err))
      | none =>
        let req : HttpRequest :=
          { req with headers := [(str "Content-Type", str "application/json"),
                                 (str "X-goog-api-key", apiKey)] }
        let resp ← httpDo req
        match resp.doErr with
        | some err => return ([], some (.wrap (str "error making request: %w") err))
        | none =>
          match resp.readErr with
          | some err => return ([], some (.wrap (str "error reading response: %w") err))
          | none =>
            if resp.StatusCode ≠ 200 then
              return ([], some (.errorf (str "API request failed with status %d: %s")
                [.int resp.StatusCode, .string resp.body]))
            else
              let decoded := env.unmarshal resp.body
              match decoded.2 with
              | some err => return ([], some (.wrap (str "error unmarshaling response: %w") err))
              | none =>
                let geminiResp := decoded.1
                if geminiResp.Candidates.length = 0 ∨
                    (geminiResp.Candidates.getD 0 ⟨[]⟩).Parts.length = 0 then
                  return ([], some (.errorf (str "no response from Gemini API") []))
                else
                  return ((geminiResp.Candidates.getD 0 ⟨[]⟩).Parts.getD 0 [], none)

/-- The function `ai.CallAI`. -/
def CallAI (prompt : GoString) : Prog (GoString × Option Error) :=
  makeGeminiRequest prompt

/-! ## `internal/ui/ui.go` -/

/-- The constant `padding`. -/
def padding : Int := 2

/-- The constant `maxWidth`. -/
def maxWidth : Int := 80

/-- The function `ui.ShowFiles`: one builtin `println(" -", f)` for each file. -/
def ShowFiles (files : List GoString) : Prog Unit := fun _ t =>
  .ret () (t ++ files.map fun f => .builtinPrintln [str " -", f])

/-- The function `ui.GetExplanation`. -/
def GetExplanation : Prog (GoString × Option Error) := fun env t =>
  .ret (env.input t) (t ++ [.input (str "What did you do in these files?")])

/-- A message handed to `Update`: one from outside, or one of the two
messages made by the closure of `Init`. -/
inductive Msg where
  | ext (m : ExtMsg)
  /-- The message `errMsg` around a non-nil error. -/
  | errMsg (error : Error)
  /-- The message `successMsg`. -/
  | successMsg (data : GoString)

/-- The struct `loadingModel`, the spinner model of fast mode. -/
structure loadingModel where
  spinner : SpinnerModel
  done : Bool
  err : Option Error
  result : GoString
  callback : Prog (GoString × Option Error)

/-- The function `newLoadingModel`. -/
def newLoadingModel (env : Env) (callback : Prog (GoString × Option Error)) : loadingModel :=
  { spinner := env.spinnerNew, done := false, err := none, result := [], callback := callback }

/-- The message made by the closure of `Init` from what the callback returned. -/
def callbackMsg (r : GoString × Option Error) : Msg :=
  match r.2 with
  | some err => .errMsg err
  | none => .successMsg r.1

/-- The method `loadingModel.Init`: `m.spinner.Tick` batched with the closure
that runs `m.callback` and turns its return into `callbackMsg`. -/
def loadingModel.Init (_m : loadingModel) : Cmd := .Batch (.widget 0) .runCallback

/-- The method `loadingModel.Update`. -/
def loadingModel.Update (env : Env) (m : loadingModel) (msg : Msg) : loadingModel × Cmd :=
  match msg with
  | .ext (.key type) =>
    if type = .KeyCtrlC then (m, .Quit) else (m, .none)
  | .errMsg error => ({ m with err := some error }, .Quit)
  | .successMsg data => ({ m with result := data, done := true }, .Quit)
  | .ext (.spinnerTick payload) =>
    let r := env.spinnerUpdate m.spinner payload
    ({ m with spinner := r.1 }, r.2)
  | _ => (m, .none)

/-- The struct `progressModel`, the progress bar model of normal mode. -/
structure progressModel where
  progress : ProgressModel
  done : Bool
  err : Option Error
  result : GoString
  callback : Prog (GoString × Option Error)
  started : Bool

/-- The function `newProgressModel`. -/
def newProgressModel (env : Env) (callback : Prog (GoString × Option Error)) : progressModel :=
  { progress := env.progressNew, done := false, err := none, result := [],
    callback := callback, started := false }

/-- The method `progressModel.Init`. -/
def progressModel.Init (_m : progressModel) : Cmd := .Batch .tickCmd .runCallback

/-- The method `progressModel.Update`. -/
def progressModel.Update (env : Env) (m : progressModel) (msg : Msg) : progressModel × Cmd :=
  match msg with
  | .ext (.key type) =>
    if type = .KeyCtrlC then (m, .Quit) else (m, .none)
  | .ext (.windowSize width _) =>
    let w := width - padding * 2 - 4
    let w := if w > maxWidth then maxWidth else w
    ({ m with progress := { m.progress with Width := w } }, .none)
  | .errMsg error => ({ m with err := some error }, .Quit)
  | .successMsg data =>
    let r := env.progressSetPercent m.progress true
    ({ m with result := data, done := true, progress := r.1 }, .Batch r.2 .Quit)
  | .ext .tick =>
    if !m.started then
      let r := env.progressSetPercent m.progress false
      ({ m with started := true, progress := r.1 }, .Batch .tickCmd r.2)
    else if env.progressAtLeast09 m.progress then (m, .none)
    else
      let r := env.progressIncrPercent m.progress
      ({ m with progress := r.1 }, .Batch .tickCmd r.2)
  | .ext (.frame payload) =>
    let r := env.progressUpdate m.progress payload
    ({ m with progress := r.1 }, r.2)
  | _ => (m, .none)

/-- The call `tea.NewProgram(init).Run()`.  When the runtime gets as far as
`Init`, the closure of `Init` starts the callback at once, so the events of the
callback are part of the run whether or not its message arrives.  The runtime
hands messages to `Update` one after the other and returns the last model with
its own error; the callback's message takes its place among the others when it
was delivered before `Run` returned, and is dropped otherwise.  When the
runtime does not reach `Init`, `Run` returns the initial model. -/
def runProgram {M : Type} (fast : Bool) (init : M) (update : Env → M → Msg → M × Cmd)
    (callback : Prog (GoString × Option Error)) : Prog (M × Option Error) := fun env t =>
  let r := env.tea t
  let t1 := t ++ [.teaRun fast]
  let step := fun (m : M) (msg : Msg) => (update env m msg).1
  if r.started then
    match callback env t1 with
    | .exit c t2 => .exit c t2
    | .ret res t2 =>
      let m1 := (r.before.map Msg.ext).foldl step init
      if r.delivered then
        .ret ((r.after.map Msg.ext).foldl step (step m1 (callbackMsg res)), r.runErr) t2
      else .ret (m1, r.runErr) t2
  else .ret (init, r.runErr) t1

/-- The function `ui.withLoadingInternal`. -/
def withLoadingInternal (callback : Prog (GoString × Option Error)) (fastMode : Bool) :
    Prog (GoString × Option Error) := do
  let env ← getEnv
  if fastMode then
    let r ← runProgram true (newLoadingModel env callback) loadingModel.Update callback
    match r.2 with
    | some err => return ([], some (.wrap (str "failed to run loading UI: %w") err))
    | none =>
      let model := r.1
      match model.err with
      | some err => return ([], some err)
      | none => return (model.result, none)
  else
    let r ← runProgram false (newProgressModel env callback) progressModel.Update callback
    match r.2 with
    | some err => return ([], some (.wrap (str "failed to run loading UI: %w") err))
    | none =>
      let model := r.1
      match model.err with
      | some err => return ([], some err)
      | none => return (model.result, none)

/-- The function `ui.WithLoading`. -/
def WithLoading (callback : Prog (GoString × Option Error)) : Prog (GoString × Option Error) :=
  withLoadingInternal callback false

/-- The function `ui.WithFastLoading`. -/
def WithFastLoading (callback : Prog (GoString × Option Error)) :
    Prog (GoString × Option Error) :=
  withLoadingInternal callback true

/-- The function `ui.ConfirmCommit`. -/
def ConfirmCommit (message : GoString) : Prog (Bool × Option Error) := do
  emit (.printf (str "\nGenerated commit message:\n%s\n\n") [.val (.string message)])
  fun env t => .ret (env.confirm t) (t ++ [.confirm (str "Use this commit message and commit?")])

/-- The function `ui.ShowError`: it prints and ends the process. -/
def ShowError (format : GoString) (args : List Operand) : Prog Unit := do
  emit (.printf (str "\nError: " ++ format ++ str "\n") args)
  osExit 1

/-- The format of `ui.ShowSuccess`, byte for byte. -/
def successFormat : GoString := str "\nâœ“ %s\n"

/-- The function `ui.ShowSuccess`. -/
def ShowSuccess (message : GoString) : Prog Unit :=
  emit (.printf successFormat [.val (.string message)])

/-! ## `cmd/root.go` -/

/-- The struct `options`. -/
structure options where
  fastMode : Bool
  deriving DecidableEq, Repr

/-- The function `parseFlags`. -/
def parseFlags : Prog options := fun env t =>
  match env.flagExit with
  | some code => .exit code t
  | none => .ret { fastMode := env.fastFlag } t

/-- The function `handleUnstagedChanges`. -/
def handleUnstagedChanges : Prog Unit := do
  let r ← GetUnstagedFiles
  match r.2 with
  | some err => ShowError (str "getting unstaged files: %v") [.err err]
  | none => pure ()
  emit (.println [str "\nUnstaged files:"])
  ShowFiles r.1
  emit (.println [str "\nPlease add the files to the staging area and try again."])
  osExit 1

/-- The function `validateEnvironment`. -/
def validateEnvironment : Prog Unit := do
  let apiKey ← GetAPIKey
  if apiKey = [] then
    ShowError (str "GEMINI_API_KEY environment variable is not set. Please set it and try again.") []
    osExit 1
  else
    pure ()

/-- The function `getStagedFiles`. -/
def getStagedFiles : Prog (List GoString) := do
  let r ← GetStagedFiles
  match r.2 with
  | some _ => handleUnstagedChanges
  | none => pure ()
  return r.1

/-- The explanation of fast mode. -/
def fastExplanation : GoString :=
  str "Generate a commit message based on the changes in the diff"

/-- The function `getExplanation`. -/
def getExplanation (fastMode : Bool) : Prog GoString := do
  if fastMode then
    return fastExplanation
  else
    let r ← GetExplanation
    match r.2 with
    | some err => ShowError (str "reading explanation: %v") [.err err]
    | none => pure ()
    return r.1

/-- The function `getDiff`. -/
def getDiff : Prog GoString := do
  let r ← GetDiff
  match r.2 with
  | some err => ShowError (str "getting diff: %v") [.err err]
  | none => pure ()
  let diff := r.1
  let maxLen := GetMaxDiffSize
  if diff.length > maxLen then
    emit (.println [str "Warning: Diff too large, using partial diff."])
    return diff.take maxLen
  else
    return diff

/-- The function `generateCommitMessage`. -/
def generateCommitMessage (explanation diff : GoString) (fastMode : Bool) : Prog GoString := do
  let prompt := BuildPrompt explanation diff
  let r ← (if fastMode then WithFastLoading (CallAI prompt) else WithLoading (CallAI prompt))
  match r.2 with
  | some err => ShowError (str "calling AI: %v") [.err err]
  | none => pure ()
  return r.1

/-- The function `handleCommit`. -/
def handleCommit (message : GoString) : Prog Unit := do
  let err ← Commit message
  match err with
  | some err => ShowError (str "creating commit: %v") [.err err]
  | none => pure ()
  ShowSuccess (str "Commit created successfully!")

/-- The function `cmd.Root`. -/
def Root : Prog Unit := do
  let opts ← parseFlags
  validateEnvironment
  let files ← getStagedFiles
  if !opts.fastMode then
    emit (.println [str "\nStaged files:"])
    ShowFiles files
  else
    pure ()
  let explanation ← getExplanation opts.fastMode
  let diff ← getDiff
  let message ← generateCommitMessage explanation diff opts.fastMode
  if opts.fastMode then
    emit (.println [message])
  else
    let r ← ConfirmCommit message
    match r.2 with
    | some err => ShowError (str "reading confirmation: %v") [.err err]
    | none => pure ()
    if !r.1 then
      emit (.println [str "Commit cancelled."])
    else
      handleCommit message

/-! ## Notions used to state the properties -/

/-- The sequence of non-empty newline-separated segments of a text, in order. -/
def nonEmptySegments (out : GoString) : List GoString :=
  (Split out 10).filter fun seg => seg ≠ []

/-- The text made of the given lines, each followed by a newline: the
shape of a listing printed by `git diff --name-only`. -/
def terminatedLines (lines : List GoString) : GoString :=
  lines.flatMap fun l => l ++ [10]

/-- A line that trimming leaves alone: it holds no newline, and it begins and
ends with an ASCII byte that is not white space. -/
def plainName (l : GoString) : Prop :=
  10 ∉ l ∧ (∃ b, l.head? = some b ∧ b < 0x80 ∧ IsSpace b = false) ∧
    ∃ b, l.getLast? = some b ∧ b < 0x80 ∧ IsSpace b = false

/-- An outside world in which nothing fails and every answer is empty: no
flag, no environment variable, commands that print nothing, empty forms, a
loading screen that ends before the callback's message arrives, an HTTP answer
with status 0. -/
def quietEnv : Env where
  flagExit := none
  fastFlag := false
  getenv := fun _ => []
  exec := fun _ _ => { output := [], err := none }
  input := fun _ => ([], none)
  confirm := fun _ => (false, none)
  tea := fun _ =>
    { started := true, before := [], delivered := false, after := [], runErr := none }
  marshal := fun _ => ([], none)
  newRequest := fun _ => none
  httpDo := fun _ _ => { doErr := none, StatusCode := 0, body := [], readErr := none }
  unmarshal := fun _ => ({ Candidates := [] }, none)
  spinnerNew := { code := 0 }
  spinnerUpdate := fun s _ => (s, .none)
  progressNew := { Width := 0, code := 0 }
  progressAtLeast09 := fun _ => false
  progressSetPercent := fun p _ => (p, .none)
  progressIncrPercent := fun p => (p, .none)
  progressUpdate := fun p _ => (p, .none)

/-- The quiet world in which every git command prints `out`. -/
def gitPrints (out : GoString) : Env :=
  { quietEnv with exec := fun _ _ => { output := out, err := none } }

/-- The part of the prompt template before the explanation: everything
up to the first verb. -/
def promptHead : GoString := promptTemplate.take 827

/-- The part of the prompt template between the explanation and the diff:
what stands between the two verbs. -/
def promptMiddle : GoString := (promptTemplate.drop 829).take 24

/-- The quiet world with an API key, in which the endpoint answers every
request with the given status and the decoder reads the given response. -/
def answering (status : Int) (resp : GeminiResponse) : Env :=
  { quietEnv with
    getenv := fun _ => str "key"
    httpDo := fun _ _ => { doErr := none, StatusCode := status, body := str "{}", readErr := none }
    unmarshal := fun _ => (resp, none) }

/-- The request sent in the world `answering` for any prompt. -/
def sampleRequest : HttpRequest :=
  { method := str "POST", url := geminiEndpoint,
    headers := [(str "Content-Type", str "application/json"), (str "X-goog-api-key", str "key")],
    body := [] }

/-- What `withLoadingInternal` reads when `Run` has returned: the error of
`Run` and the fields `err`, `result` and `done` of the final model. -/
structure LoadingOutcome where
  runErr : Option Error
  err : Option Error
  result : GoString
  done : Bool
  deriving DecidableEq, Repr

/-- The outcome of the run of the loading program started by
`withLoadingInternal callback fastMode`. -/
def loadingOutcome (callback : Prog (GoString × Option Error)) (fastMode : Bool) :
    Prog LoadingOutcome := fun env t =>
  if fastMode then
    match runProgram true (newLoadingModel env callback) loadingModel.Update callback env t with
    | .ret r t1 => .ret ⟨r.2, r.1.err, r.1.result, r.1.done⟩ t1
    | .exit c t1 => .exit c t1
  else
    match runProgram false (newProgressModel env callback) progressModel.Update callback env t with
    | .ret r t1 => .ret ⟨r.2, r.1.err, r.1.result, r.1.done⟩ t1
    | .exit c t1 => .exit c t1

/-- A world with an API key and an endpoint that answers 200 with the
candidate `feat: add x`, in which the user presses Ctrl-C on the loading
screen before the answer is delivered. -/
def interruptedEnv : Env :=
  { answering 200 { Candidates := [{ Parts := [str "feat: add x"] }] } with
    tea := fun _ => { started := true, before := [.tick, .spinnerTick 0, .key .KeyCtrlC],
                      delivered := false, after := [], runErr := none } }

/-- The quiet world in which `Run` itself fails (no terminal to open). -/
def noTerminalEnv : Env :=
  { quietEnv with
    tea := fun _ => { started := false, before := [], delivered := false, after := [],
                      runErr := some (.external 1) } }

/-- The events the stages before the confirmation can add to a run: the three
read-only git commands, error reports, plain lines, the loading screen, the
request, and (outside fast mode) the input form; never the confirm form and
never a call of `git.Commit`. -/
def stageEvent (fast : Bool) : Event → Prop
  | .exec argv => argv = stagedArgv ∨ argv = unstagedArgv ∨ argv = diffArgv
  | .printf format _ => ∃ f, format = str "\nError: " ++ f ++ str "\n"
  | .println _ => True
  | .builtinPrintln _ => True
  | .input _ => fast = false
  | .teaRun _ => True
  | .http _ => True
  | .confirm _ => False
  | .commitCalled _ => False

/-- The computation adds only events satisfying `Q` to a run. -/
def addsOnly {α : Type} (Q : Event → Prop) (m : Prog α) (env : Env) : Prop :=
  ∀ t, (∀ e ∈ t, Q e) → ∀ e ∈ (m env t).events, Q e

/-- The title of the confirm form. -/
def confirmTitle : GoString := str "Use this commit message and commit?"

/-- The format with which `ConfirmCommit` shows the message. -/
def generatedFormat : GoString := str "\nGenerated commit message:\n%s\n\n"

/-- The format of an error report of `ShowError`. -/
def errorFormat (format : GoString) : GoString := str "\nError: " ++ format ++ str "\n"

/-- The success report of `handleCommit`. -/
def successEvent : Event :=
  .printf successFormat [.val (.string (str "Commit created successfully!"))]

/-- The run of `Root` from the confirmation on, outside fast mode, for a
generated message and the events `t` so far. -/
def confirmOutcome (env : Env) (message : GoString) (t : Trace) : Outcome Unit :=
  let tc := t ++ [.printf generatedFormat [.val (.string message)]]
  let tq := tc ++ [.confirm confirmTitle]
  match env.confirm tc with
  | (_, some err) =>
    .exit 1 (tq ++ [.printf (errorFormat (str "reading confirmation: %v")) [.err err]])
  | (false, none) => .ret () (tq ++ [.println [str "Commit cancelled."]])
  | (true, none) =>
    if message = [] then
      .exit 1 (tq ++ [.commitCalled message,
        .printf (errorFormat (str "creating commit: %v")) [.err ErrEmptyCommitMessage]])
    else
      match (env.exec (tq ++ [.commitCalled message]) (commitArgv message)).err with
      | some err =>
        .exit 1 (tq ++ [.commitCalled message, .exec (commitArgv message),
          .printf (errorFormat (str "creating commit: %v")) [.err err]])
      | none =>
        .ret () (tq ++ [.commitCalled message, .exec (commitArgv message), successEvent])

/-- The event marks a call of `git.Commit`. -/
def Event.isCommitCall : Event → Bool
  | .commitCalled _ => true
  | _ => false

/-- A world in which every stage works: an API key is set, one file is
staged, the user explains and confirms, the loading screen delivers the
answer, and the endpoint answers 200 with one candidate. -/
def workingEnv (fast : Bool) : Env :=
  { quietEnv with
    fastFlag := fast
    getenv := fun _ => str "key"
    exec := fun _ argv =>
      if argv = stagedArgv then { output := str "main.go\n", err := none }
      else { output := str "+x\n", err := none }
    input := fun _ => (str "x eklendi", none)
    confirm := fun _ => (true, none)
    tea := fun _ =>
      { started := true, before := [.tick], delivered := true, after := [], runErr := none }
    httpDo := fun _ _ => { doErr := none, StatusCode := 200, body := str "{}", readErr := none }
    unmarshal := fun _ => ({ Candidates := [{ Parts := [str "feat: add x"] }] }, none) }

/-- The working world outside fast mode, except that the user presses Ctrl-C
on the loading screen before the answer of the endpoint is delivered, and then
confirms. -/
def ctrlCEnv : Env :=
  { workingEnv false with
    tea := fun _ => { started := true, before := [.tick, .key .KeyCtrlC], delivered := false,
                      after := [], runErr := none } }

/-! ## Properties -/

theorem isSpace_runeError : IsSpace RuneError = false := by decide

theorem decode_ascii (b : Nat) (rest : GoString) (h : b < 0x80) :
    DecodeRuneInString (b :: rest) = (b, 1) := by
  simp [DecodeRuneInString, h]

theorem decode_nil : DecodeRuneInString [] = (RuneError, 0) := rfl

theorem decode_single (b : Nat) :
    DecodeRuneInString [b] = if b < 0x80 then (b, 1) else (RuneError, 1) := by
  simp only [DecodeRuneInString]
  split_ifs <;> rfl

theorem decode_width_le (s : GoString) : (DecodeRuneInString s).2 ≤ 4 := by
  rcases s with _ | ⟨s0, _ | ⟨s1, _ | ⟨s2, _ | ⟨s3, rest⟩⟩⟩⟩
  · simp [decode_nil]
  all_goals
    simp only [DecodeRuneInString]
    split_ifs <;> simp

theorem decode_append_two (s0 s1 : Nat) (y : GoString)
    (hw : 2 ≤ (DecodeRuneInString [s0, s1]).2) :
    DecodeRuneInString (s0 :: s1 :: y) = DecodeRuneInString [s0, s1] := by
  revert hw
  simp only [DecodeRuneInString]
  split_ifs <;> simp

theorem decode_append_three (s0 s1 s2 : Nat) (y : GoString)
    (hw : 3 ≤ (DecodeRuneInString [s0, s1, s2]).2) :
    DecodeRuneInString (s0 :: s1 :: s2 :: y) = DecodeRuneInString [s0, s1, s2] := by
  revert hw
  simp only [DecodeRuneInString]
  split_ifs <;> simp

theorem decode_append_four (s0 s1 s2 s3 : Nat) (y : GoString)
    (hw : 4 ≤ (DecodeRuneInString [s0, s1, s2, s3]).2) :
    DecodeRuneInString (s0 :: s1 :: s2 :: s3 :: y) = DecodeRuneInString [s0, s1, s2, s3] := by
  revert hw
  simp only [DecodeRuneInString]
  split_ifs <;> simp

theorem decode_width_pos (s : GoString) (h : s ≠ []) : 1 ≤ (DecodeRuneInString s).2 := by
  rcases s with _ | ⟨s0, _ | ⟨s1, _ | ⟨s2, _ | ⟨s3, rest⟩⟩⟩⟩
  · exact absurd rfl h
  all_goals
    simp only [DecodeRuneInString]
    split_ifs <;> simp

/-- A decoded white-space code point is decoded from the bytes it spans only. -/
theorem decode_space_append (x y : GoString)
    (hs : IsSpace (DecodeRuneInString x).1 = true)
    (hw : x.length ≤ (DecodeRuneInString x).2) :
    DecodeRuneInString (x ++ y) = DecodeRuneInString x := by
  rcases x with _ | ⟨s0, _ | ⟨s1, _ | ⟨s2, _ | ⟨s3, _ | ⟨s4, rest⟩⟩⟩⟩⟩
  · simp [decode_nil, isSpace_runeError] at hs
  · rw [decode_single] at hs ⊢
    by_cases h : s0 < 0x80
    · simp [h, decode_ascii]
    · simp [h, isSpace_runeError] at hs
  · exact decode_append_two s0 s1 y hw
  · exact decode_append_three s0 s1 s2 y hw
  · exact decode_append_four s0 s1 s2 s3 y hw
  · have := decode_width_le (s0 :: s1 :: s2 :: s3 :: s4 :: rest)
    simp at hw
    omega

/-! ### `TrimLeftFunc` -/

theorem trimLeftLoop_nil (f : Nat → Bool) (n : Nat) : trimLeftLoop f n [] = [] := by
  cases n <;> rfl

theorem trimLeftLoop_suffix (f : Nat → Bool) (n : Nat) (s : GoString) :
    trimLeftLoop f n s <:+ s := by
  induction n generalizing s with
  | zero => exact List.suffix_refl s
  | succ n ih =>
    cases s with
    | nil => exact List.suffix_refl _
    | cons b rest =>
      simp only [trimLeftLoop]
      split_ifs
      · exact (ih _).trans (List.drop_suffix _ _)
      · exact List.suffix_refl _

/-- With enough iterations the loop ends on the empty string or on a string
whose first code point does not satisfy `f`. -/
theorem trimLeftLoop_stops (f : Nat → Bool) (n : Nat) (s : GoString) (hn : s.length ≤ n) :
    trimLeftLoop f n s = [] ∨ f (DecodeRuneInString (trimLeftLoop f n s)).1 = false := by
  induction n generalizing s with
  | zero =>
    left
    have : s = [] := List.length_eq_zero.mp (by omega)
    subst this; rfl
  | succ n ih =>
    cases s with
    | nil => left; rfl
    | cons b rest =>
      simp only [trimLeftLoop]
      split_ifs with h
      · apply ih
        have := decode_width_pos (b :: rest) (by simp)
        simp only [List.length_drop, List.length_cons] at hn ⊢
        omega
      · right; simpa using h

/-- The loop returns the empty string exactly when every code point
satisfies `f`. -/
theorem trimLeftLoop_eq_nil_iff (f : Nat → Bool) (n : Nat) (s : GoString) (hn : s.length ≤ n) :
    trimLeftLoop f n s = [] ↔ (runesLoop n s).all f = true := by
  induction n generalizing s with
  | zero =>
    have : s = [] := List.length_eq_zero.mp (by omega)
    subst this; simp [trimLeftLoop, runesLoop]
  | succ n ih =>
    cases s with
    | nil => simp [trimLeftLoop, runesLoop]
    | cons b rest =>
      have hpos := decode_width_pos (b :: rest) (by simp)
      have hlen : ((b :: rest).drop (DecodeRuneInString (b :: rest)).2).length ≤ n := by
        simp only [List.length_drop, List.length_cons] at hn ⊢
        omega
      simp only [trimLeftLoop, runesLoop, List.all_cons, Bool.and_eq_true]
      split_ifs with h
      · rw [ih _ hlen]; simp [h]
      · simp [h]

/-! ### `DecodeLastRuneInString` and `TrimRightFunc` -/

theorem scanBack_le (s : GoString) (lim : Int) (n : Nat) (start : Int) :
    scanBack s lim n start ≤ start := by
  induction n generalizing start with
  | zero => simp [scanBack]
  | succ n ih =>
    simp only [scanBack]
    split_ifs
    · exact le_refl _
    · have := ih (start - 1); omega
    · exact le_refl _

theorem decodeLast_ascii (xs : GoString) (b : Nat) (h : b < 0x80) :
    DecodeLastRuneInString (xs ++ [b]) = (b, 1) := by
  simp [DecodeLastRuneInString, h]

/-- The last code point is decoded forwards from the place where it starts. -/
theorem decodeLast_eq_decode (s : GoString) (h : s ≠ []) :
    DecodeLastRuneInString s = (RuneError, 1) ∨
      ∃ k, k < s.length ∧ k + (DecodeLastRuneInString s).2 = s.length ∧
        DecodeRuneInString (s.drop k) = DecodeLastRuneInString s := by
  have hlen : 0 < s.length := List.length_pos.mpr h
  have hne : ¬ s.length = 0 := by omega
  unfold DecodeLastRuneInString
  simp only [if_neg hne]
  by_cases hr : s.getD (s.length - 1) 0 < 0x80
  · right
    simp only [if_pos hr]
    refine ⟨s.length - 1, by omega, by omega, ?_⟩
    have hd : s.drop (s.length - 1) = [s.getD (s.length - 1) 0] := by
      rw [List.drop_eq_getElem_cons (by omega), List.getD_eq_getElem _ _ (by omega)]
      congr 1
      rw [List.drop_eq_nil_iff]; omega
    rw [hd, decode_ascii _ _ hr]
  · simp only [if_neg hr]
    have hsb := scanBack_le s (if (s.length : Int) - 4 < 0 then 0 else (s.length : Int) - 4) 4
      ((s.length : Int) - 2)
    generalize scanBack s (if (s.length : Int) - 4 < 0 then 0 else (s.length : Int) - 4) 4
      ((s.length : Int) - 2) = st at hsb ⊢
    by_cases hm : (if st < 0 then 0 else st).toNat +
        (DecodeRuneInString (s.drop (if st < 0 then 0 else st).toNat)).2 ≠ s.length
    · left; rw [if_pos hm]
    · right
      rw [if_neg hm]
      simp only [ne_eq, not_not] at hm
      refine ⟨_, ?_, hm, rfl⟩
      split_ifs <;> omega

theorem decodeLast_width_pos (s : GoString) (h : s ≠ []) :
    1 ≤ (DecodeLastRuneInString s).2 := by
  rcases decodeLast_eq_decode s h with h1 | ⟨k, hk, _, hd⟩
  · rw [h1]
  · rw [← hd]
    apply decode_width_pos
    intro h0
    rw [List.drop_eq_nil_iff] at h0
    omega

theorem trimRightLoop_prefix (f : Nat → Bool) (n : Nat) (s : GoString) :
    trimRightLoop f n s <+: s := by
  induction n generalizing s with
  | zero => exact List.prefix_refl s
  | succ n ih =>
    cases s with
    | nil => exact List.prefix_refl _
    | cons b rest =>
      simp only [trimRightLoop]
      split_ifs
      · exact (ih _).trans (List.take_prefix _ _)
      · exact List.prefix_refl _

theorem trimRightLoop_stops (f : Nat → Bool) (n : Nat) (s : GoString) (hn : s.length ≤ n) :
    trimRightLoop f n s = [] ∨ f (DecodeLastRuneInString (trimRightLoop f n s)).1 = false := by
  induction n generalizing s with
  | zero =>
    left
    have : s = [] := List.length_eq_zero.mp (by omega)
    subst this; rfl
  | succ n ih =>
    cases s with
    | nil => left; rfl
    | cons b rest =>
      simp only [trimRightLoop]
      split_ifs with h
      · apply ih
        have := decodeLast_width_pos (b :: rest) (by simp)
        simp only [List.length_take, List.length_cons] at hn ⊢
        omega
      · right; simpa using h

/-- Trimming white space from the right cannot remove a string whose first
code point is not white space: no non-empty prefix of it is trimmed to nothing. -/
theorem trimRightLoop_ne_nil (t : GoString) (ht : IsSpace (DecodeRuneInString t).1 = false)
    (n : Nat) (x : GoString) (hx : x <+: t) (hne : x ≠ []) :
    trimRightLoop IsSpace n x ≠ [] := by
  induction n generalizing x with
  | zero => simpa [trimRightLoop] using hne
  | succ n ih =>
    cases x with
    | nil => exact absurd rfl hne
    | cons b rest =>
      simp only [trimRightLoop]
      split_ifs with h
      · by_cases hemp : (b :: rest).take ((b :: rest).length - (DecodeLastRuneInString (b :: rest)).2) = []
        · exfalso
          rcases decodeLast_eq_decode (b :: rest) (by simp) with h1 | ⟨k, hk, hsum, hd⟩
          · rw [h1] at h; simp [isSpace_runeError] at h
          · have hk0 : k = 0 := by
              rw [List.take_eq_nil_iff] at hemp
              rcases hemp with hemp | hemp
              · omega
              · simp at hemp
            subst hk0
            simp only [List.drop_zero] at hd
            obtain ⟨y, hy⟩ := hx
            have := decode_space_append (b :: rest) y (by rw [hd]; exact h) (by rw [hd]; omega)
            rw [hy, hd] at this
            rw [this, h] at ht
            exact absurd ht (by simp)
        · exact ih _ ((List.take_prefix _ _).trans hx) hemp
      · simp

/-! ### `TrimSpace` -/

theorem trimSpace_eq_nil_iff (s : GoString) :
    TrimSpace s = [] ↔ (runes s).all IsSpace = true := by
  unfold TrimSpace TrimFunc TrimRightFunc TrimLeftFunc runes
  rw [← trimLeftLoop_eq_nil_iff IsSpace s.length s (le_refl _)]
  constructor
  · intro h
    by_contra hne
    rcases trimLeftLoop_stops IsSpace s.length s (le_refl _) with h0 | h1
    · exact hne h0
    · exact trimRightLoop_ne_nil _ h1 _ _ (List.prefix_refl _) hne h
  · intro h
    rw [h]; rfl

theorem trimSpace_head (s : GoString) (b : Nat) (rest : GoString)
    (h : TrimSpace s = b :: rest) : IsSpace b = false ∨ 0x80 ≤ b := by
  unfold TrimSpace TrimFunc TrimRightFunc TrimLeftFunc at h
  have hpre := trimRightLoop_prefix IsSpace (trimLeftLoop IsSpace s.length s).length
    (trimLeftLoop IsSpace s.length s)
  rw [h] at hpre
  obtain ⟨y, hy⟩ := hpre
  rcases trimLeftLoop_stops IsSpace s.length s (le_refl _) with h0 | h1
  · rw [h0] at hy; simp at hy
  · rw [← hy] at h1
    by_cases hb : b < 0x80
    · left
      rw [List.cons_append, decode_ascii _ _ hb] at h1
      exact h1
    · right; omega

theorem trimSpace_last (s : GoString) (xs : GoString) (b : Nat)
    (h : TrimSpace s = xs ++ [b]) : IsSpace b = false ∨ 0x80 ≤ b := by
  unfold TrimSpace TrimFunc TrimRightFunc at h
  rcases trimRightLoop_stops IsSpace _ (TrimLeftFunc s IsSpace) (le_refl _) with h0 | h1
  · rw [h0] at h; simp at h
  · rw [h] at h1
    by_cases hb : b < 0x80
    · left
      rw [decodeLast_ascii _ _ hb] at h1
      exact h1
    · right; omega

/-! ### `Split` -/

theorem split_ne_nil (s : GoString) (sep : Nat) : Split s sep ≠ [] := by
  cases s with
  | nil => simp [Split]
  | cons c s =>
    simp only [Split]
    split_ifs
    · simp
    · split <;> simp

theorem split_cons_ne (c : Nat) (s : GoString) (sep : Nat) (h : c ≠ sep) :
    ∃ seg segs, Split s sep = seg :: segs ∧ Split (c :: s) sep = (c :: seg) :: segs := by
  rcases hs : Split s sep with _ | ⟨seg, segs⟩
  · exact absurd hs (split_ne_nil s sep)
  · exact ⟨seg, segs, rfl, by simp [Split, h, hs]⟩

/-- Joining the elements with the separator gives the string back: `Split`
drops nothing but the separators. -/
theorem intercalate_split (s : GoString) (sep : Nat) :
    [sep].intercalate (Split s sep) = s := by
  induction s with
  | nil => simp [Split, List.intercalate]
  | cons c s ih =>
    by_cases h : c = sep
    · subst h
      rcases hs : Split s c with _ | ⟨seg, segs⟩
      · exact absurd hs (split_ne_nil s c)
      · rw [hs] at ih
        simp only [Split, if_true, hs]
        rw [← ih]
        simp [List.intercalate]
    · obtain ⟨seg, segs, hs, hc⟩ := split_cons_ne c s sep h
      rw [hc]
      rw [hs] at ih
      rw [← ih]
      cases segs <;> simp [List.intercalate]

theorem split_of_not_mem (l : GoString) (sep : Nat) (h : sep ∉ l) : Split l sep = [l] := by
  induction l with
  | nil => rfl
  | cons c l ih =>
    simp only [List.mem_cons, not_or] at h
    simp [Split, Ne.symm h.1, ih h.2]

theorem split_append_sep (l rest : GoString) (sep : Nat) (h : sep ∉ l) :
    Split (l ++ sep :: rest) sep = l :: Split rest sep := by
  induction l with
  | nil => simp [Split]
  | cons c l ih =>
    simp only [List.mem_cons, not_or] at h
    simp [Split, Ne.symm h.1, ih h.2]

theorem split_getLast_nil (s : GoString) (sep : Nat)
    (h : (Split s sep).getLast? = some []) : s = [] ∨ s.getLast? = some sep := by
  induction s with
  | nil => left; rfl
  | cons c s ih =>
    right
    by_cases hc : c = sep
    · subst hc
      simp only [Split, if_true] at h
      rcases hs : Split s c with _ | ⟨seg, segs⟩
      · exact absurd hs (split_ne_nil s c)
      rw [hs, List.getLast?_cons_cons, ← hs] at h
      rcases ih h with h0 | h1
      · subst h0; rfl
      · cases s with
        | nil => rfl
        | cons d s => rw [List.getLast?_cons_cons]; exact h1
    · obtain ⟨seg, segs, hs, hcs⟩ := split_cons_ne c s sep hc
      rw [hcs] at h
      cases segs with
      | nil => simp at h
      | cons x xs =>
        rw [List.getLast?_cons_cons] at h
        have h2 : (Split s sep).getLast? = some [] := by
          rw [hs, List.getLast?_cons_cons]; exact h
        rcases ih h2 with h0 | h1
        · subst h0; simp [Split] at hs
        · cases s with
          | nil => simp at h1
          | cons d s => rw [List.getLast?_cons_cons]; exact h1

/-! ### `GetStagedFiles` -/

theorem getStagedFiles_run (env : Env) (t : Trace) :
    GetStagedFiles env t =
      match (env.exec t stagedArgv).err with
      | some err => .ret ([], some err) (t ++ [.exec stagedArgv])
      | none =>
        .ret (if TrimSpace (env.exec t stagedArgv).output = [] then ([], some ErrNoStagedFiles)
          else (Split (TrimSpace (env.exec t stagedArgv).output) 10, none))
          (t ++ [.exec stagedArgv]) := by
  simp only [GetStagedFiles, bind, Prog.bind, runCommand]
  cases (env.exec t stagedArgv).err
  · simp only []
    split_ifs <;> rfl
  · rfl

/-- C7: after a git run without error, `GetStagedFiles` returns
`(nil, ErrNoStagedFiles)` exactly when every code point of the output is white
space (the empty output included); otherwise it returns a nil error with a
non-empty list whose first and last elements are non-empty. -/
theorem getStagedFiles_empty_iff (env : Env) (t : Trace) (out : GoString)
    (hexec : env.exec t stagedArgv = ⟨out, none⟩) :
    (GetStagedFiles env t = .ret ([], some ErrNoStagedFiles) (t ++ [.exec stagedArgv]) ↔
        (runes out).all IsSpace = true) ∧
      ((runes out).all IsSpace = false →
        ∃ first rest last, GetStagedFiles env t = .ret (first :: rest, none) (t ++ [.exec stagedArgv]) ∧
          first ≠ [] ∧ (first :: rest).getLast? = some last ∧ last ≠ []) := by
  rw [getStagedFiles_run, hexec]
  simp only []
  constructor
  · rw [← trimSpace_eq_nil_iff]
    by_cases h : TrimSpace out = []
    · simp [h]
    · simp [h]
  · intro hns
    have hne : TrimSpace out ≠ [] := by
      rw [Ne, trimSpace_eq_nil_iff, hns]; simp
    simp only [if_neg hne]
    rcases htrim : TrimSpace out with _ | ⟨b, rest⟩
    · exact absurd htrim hne
    · have hb : b ≠ 10 := by
        rcases trimSpace_head out b rest htrim with h1 | h1
        · intro h10; subst h10; simp [IsSpace] at h1
        · omega
      obtain ⟨seg, segs, _, hcs⟩ := split_cons_ne b rest 10 hb
      rw [hcs]
      rcases hl : ((b :: seg) :: segs).getLast? with _ | last
      · simp at hl
      · refine ⟨b :: seg, segs, last, rfl, by simp, hl, ?_⟩
        intro hlast
        subst hlast
        rw [← hcs] at hl
        rcases split_getLast_nil _ _ hl with h0 | h1
        · simp at h0
        · obtain ⟨xs, e, hxe⟩ : ∃ xs e, b :: rest = xs ++ [e] := by
            rcases List.eq_nil_or_concat (b :: rest) with h0 | ⟨xs, e, h2⟩
            · simp at h0
            · exact ⟨xs, e, by simpa using h2⟩
          rw [hxe] at h1
          simp at h1
          subst h1
          rcases trimSpace_last out xs 10 (by rw [htrim, hxe]) with h3 | h3
          · simp [IsSpace] at h3
          · omega

theorem split_concat_sep (s : GoString) (sep : Nat) :
    Split (s ++ [sep]) sep = Split s sep ++ [[]] := by
  induction s with
  | nil => simp [Split]
  | cons c s ih =>
    by_cases hc : c = sep
    · subst hc; simp [Split, ih]
    · obtain ⟨seg, segs, hs, hcs⟩ := split_cons_ne c s sep hc
      rw [hcs]
      have h2 : Split (s ++ [sep]) sep = seg :: (segs ++ [[]]) := by rw [ih, hs]; rfl
      obtain ⟨seg2, segs2, hs2, hcs2⟩ := split_cons_ne c (s ++ [sep]) sep hc
      rw [List.cons_append, hcs2]
      rw [h2] at hs2
      cases hs2
      rfl

theorem split_terminatedLines (lines : List GoString) (h : ∀ l ∈ lines, 10 ∉ l) :
    Split (terminatedLines lines) 10 = lines ++ [[]] := by
  induction lines with
  | nil => rfl
  | cons l ls ih =>
    have h1 : (10 : Nat) ∉ l := h l (List.mem_cons_self _ _)
    have h2 : ∀ l ∈ ls, 10 ∉ l := fun x hx => h x (List.mem_cons_of_mem _ hx)
    have : terminatedLines (l :: ls) = l ++ 10 :: terminatedLines ls := by
      simp [terminatedLines]
    rw [this, split_append_sep l _ 10 h1, ih h2]
    rfl

theorem trimLeft_plain (b : Nat) (rest : GoString) (hb : b < 0x80) (hs : IsSpace b = false) :
    TrimLeftFunc (b :: rest) IsSpace = b :: rest := by
  simp [TrimLeftFunc, trimLeftLoop, decode_ascii _ _ hb, hs]

theorem trimRightLoop_succ (f : Nat → Bool) (n : Nat) (s : GoString) (h : s ≠ []) :
    trimRightLoop f (n + 1) s =
      if f (DecodeLastRuneInString s).1 then
        trimRightLoop f n (s.take (s.length - (DecodeLastRuneInString s).2))
      else s := by
  cases s with
  | nil => exact absurd rfl h
  | cons b rest => rfl

theorem trimRight_newline (pre : GoString) (e : Nat) (he : e < 0x80) (hs : IsSpace e = false) :
    TrimRightFunc (pre ++ [e, 10]) IsSpace = pre ++ [e] := by
  have h1 : pre ++ [e, 10] = (pre ++ [e]) ++ [10] := by simp
  have hlen : (pre ++ [e, 10]).length = (pre.length + 1) + 1 := by simp
  unfold TrimRightFunc
  rw [hlen, trimRightLoop_succ _ _ _ (by simp), h1, decodeLast_ascii _ 10 (by decide)]
  have h10 : IsSpace 10 = true := by decide
  simp only [h10, if_true]
  have htake : ((pre ++ [e]) ++ [10]).take (((pre ++ [e]) ++ [10]).length - 1) = pre ++ [e] := by
    rw [List.length_append, List.length_singleton, Nat.add_sub_cancel, List.take_left']
    rfl
  rw [htake, trimRightLoop_succ _ _ _ (by simp), decodeLast_ascii _ e he]
  simp [hs]

/-- The listing git prints for names that need no trimming is split into
exactly these names. -/
theorem trimSpace_terminatedLines (lines : List GoString) (hne : lines ≠ [])
    (hp : ∀ l ∈ lines, plainName l) :
    ∃ body, terminatedLines lines = body ++ [10] ∧
      TrimSpace (terminatedLines lines) = body := by
  obtain ⟨l1, ls, rfl⟩ := List.exists_cons_of_ne_nil hne
  obtain ⟨_, ⟨b0, hb0, hb0a, hb0s⟩, _⟩ := hp l1 (List.mem_cons_self _ _)
  obtain ⟨l1r, rfl⟩ : ∃ r, l1 = b0 :: r := by
    cases l1 with
    | nil => simp at hb0
    | cons x r => exact ⟨r, by simp at hb0; rw [hb0]⟩
  rcases List.eq_nil_or_concat ((b0 :: l1r) :: ls) with h0 | ⟨front, ln, hfl⟩
  · simp at h0
  have hfl2 : (b0 :: l1r) :: ls = front ++ [ln] := by simpa using hfl
  obtain ⟨_, _, ⟨e, he, hea, hes⟩⟩ := hp ln (by rw [hfl2]; simp)
  obtain ⟨lnr, rfl⟩ : ∃ r, ln = r ++ [e] := by
    rcases List.eq_nil_or_concat ln with h0 | ⟨r, x, hx⟩
    · subst h0; simp at he
    · refine ⟨r, ?_⟩
      have hx2 : ln = r ++ [x] := by simpa using hx
      subst hx2
      simp at he
      rw [he]
  have hout : terminatedLines ((b0 :: l1r) :: ls) = (terminatedLines front ++ lnr) ++ [e, 10] := by
    rw [hfl2]; simp [terminatedLines]
  refine ⟨terminatedLines front ++ lnr ++ [e], by rw [hout]; simp, ?_⟩
  have hhead : terminatedLines ((b0 :: l1r) :: ls)
      = b0 :: (l1r ++ 10 :: terminatedLines ls) := by simp [terminatedLines]
  unfold TrimSpace TrimFunc
  rw [hhead, trimLeft_plain _ _ hb0a hb0s, ← hhead, hout]
  exact trimRight_newline _ e hea hes

/-- C2: the code departs from the claim.  For one staged file named ` a`
git prints ` a` and a newline; the non-empty newline-separated segments of this
output are the one name ` a`, but `GetStagedFiles` returns the list `a`, a name
that is not staged. -/
theorem getStagedFiles_leading_space :
    GetStagedFiles (gitPrints (str " a\n")) [] = .ret ([str "a"], none) [.exec stagedArgv] ∧
      nonEmptySegments (str " a\n") = [str " a"] ∧
      [str "a"] ≠ nonEmptySegments (str " a\n") := by
  decide

/-- What `GetStagedFiles` computes on success: the output with its leading and
trailing white space removed, split on newlines, with nothing filtered out
(joining the list with newlines gives the trimmed output back).  For a listing
of lines that are free of newlines and begin and end with an ASCII byte that is
not white space, this is the list of these lines, which is the sequence of the
non-empty newline-separated segments of the output. -/
theorem getStagedFiles_list (env : Env) (t t1 : Trace) (out : GoString) (files : List GoString)
    (hexec : env.exec t stagedArgv = ⟨out, none⟩)
    (hok : GetStagedFiles env t = .ret (files, none) t1) :
    files = Split (TrimSpace out) 10 ∧
      [10].intercalate files = TrimSpace out ∧
      ∀ lines, lines ≠ [] → (∀ l ∈ lines, plainName l) → out = terminatedLines lines →
        files = lines ∧ [] ∉ files ∧ files = nonEmptySegments out := by
  rw [getStagedFiles_run, hexec] at hok
  simp only [] at hok
  have hfiles : files = Split (TrimSpace out) 10 := by
    by_cases h : TrimSpace out = []
    · simp [h] at hok
    · simp only [if_neg h, Outcome.ret.injEq, Prod.mk.injEq] at hok
      exact hok.1.1.symm
  subst hfiles
  refine ⟨rfl, intercalate_split _ _, ?_⟩
  intro lines hne hp hout
  have hnl : ∀ l ∈ lines, 10 ∉ l := fun l hl => (hp l hl).1
  have hsplit := split_terminatedLines lines hnl
  obtain ⟨body, hbody, htrim⟩ := trimSpace_terminatedLines lines hne hp
  have hlines : Split body 10 = lines := by
    rw [hbody, split_concat_sep] at hsplit
    exact List.append_cancel_right hsplit
  have hnonempty : ∀ l ∈ lines, l ≠ [] := by
    intro l hl h0
    obtain ⟨_, ⟨b, hb, _⟩, _⟩ := hp l hl
    rw [h0] at hb; simp at hb
  rw [hout, htrim, hlines]
  refine ⟨rfl, fun h => hnonempty _ h rfl, ?_⟩
  unfold nonEmptySegments
  rw [hsplit, List.filter_append]
  have h1 : lines.filter (fun seg => decide (seg ≠ [])) = lines := by
    rw [List.filter_eq_self]
    intro l hl
    simpa using hnonempty l hl
  rw [h1]
  simp

theorem getStagedFiles_list_witness :
    (gitPrints (str "a\nb\n")).exec [] stagedArgv = ⟨str "a\nb\n", none⟩ ∧
      GetStagedFiles (gitPrints (str "a\nb\n")) [] =
        .ret ([str "a", str "b"], none) [.exec stagedArgv] ∧
      [str "a", str "b"] = Split (TrimSpace (str "a\nb\n")) 10 ∧
      [10].intercalate [str "a", str "b"] = TrimSpace (str "a\nb\n") ∧
      ([] : GoString) ∉ [str "a", str "b"] ∧
      [str "a", str "b"] = nonEmptySegments (str "a\nb\n") := by
  have h := getStagedFiles_list (gitPrints (str "a\nb\n")) [] [.exec stagedArgv] (str "a\nb\n")
    [str "a", str "b"] (by decide) (by decide)
  have hp : ∀ l ∈ [str "a", str "b"], plainName l := by
    intro l hl
    simp only [List.mem_cons, List.mem_singleton, List.not_mem_nil, or_false] at hl
    rcases hl with rfl | rfl
    · exact ⟨by decide, ⟨97, by decide, by decide, by decide⟩, ⟨97, by decide, by decide, by decide⟩⟩
    · exact ⟨by decide, ⟨98, by decide, by decide, by decide⟩, ⟨98, by decide, by decide, by decide⟩⟩
  have h3 := h.2.2 [str "a", str "b"] (by decide) hp (by decide)
  exact ⟨by decide, by decide, h.1, h.2.1, h3.2.1, h3.2.2⟩

/-- A world in which git prints only white space. -/
theorem getStagedFiles_empty_iff_witness :
    (gitPrints (str " \n\t")).exec [] stagedArgv = ⟨str " \n\t", none⟩ ∧
      GetStagedFiles (gitPrints (str " \n\t")) [] =
        .ret ([], some ErrNoStagedFiles) ([] ++ [.exec stagedArgv]) :=
  ⟨rfl, (getStagedFiles_empty_iff (gitPrints (str " \n\t")) [] (str " \n\t") rfl).1.mpr
    (by decide)⟩

/-! ### Running computations; `Commit`, `getDiff` -/

theorem run_bind {α β : Type} (m : Prog α) (f : α → Prog β) (env : Env) (t : Trace) :
    (m >>= f) env t =
      match m env t with
      | .ret a t1 => f a env t1
      | .exit c t1 => .exit c t1 := rfl

theorem run_pure {α : Type} (a : α) (env : Env) (t : Trace) :
    (pure a : Prog α) env t = .ret a t := rfl

theorem run_emit (e : Event) (env : Env) (t : Trace) : emit e env t = .ret () (t ++ [e]) := rfl

theorem run_osExit {α : Type} (c : Int) (env : Env) (t : Trace) :
    (osExit c : Prog α) env t = .exit c t := rfl

theorem run_getEnv (env : Env) (t : Trace) : getEnv env t = .ret env t := rfl

theorem run_runCommand (argv : List GoString) (env : Env) (t : Trace) :
    runCommand argv env t = .ret (env.exec t argv) (t ++ [.exec argv]) := rfl

theorem commit_run (message : GoString) (env : Env) (t : Trace) :
    Commit message env t =
      if message = [] then
        .ret (some ErrEmptyCommitMessage) (t ++ [.commitCalled message])
      else
        .ret (env.exec (t ++ [.commitCalled message]) [str "git", str "commit", str "-m", message]).err
          (t ++ [.commitCalled message, .exec [str "git", str "commit", str "-m", message]]) := by
  simp only [Commit, run_bind, run_emit, commitArgv]
  split_ifs with h
  · rfl
  · simp only [run_bind, run_runCommand, List.append_assoc, List.singleton_append]
    cases (env.exec (t ++ [Event.commitCalled message]) [str "git", str "commit", str "-m", message]).err <;>
      rfl

theorem getDiff_run (env : Env) (t : Trace) (diff : GoString)
    (hexec : env.exec t diffArgv = ⟨diff, none⟩) :
    getDiff env t =
      if diff.length ≤ 10000 then .ret diff (t ++ [.exec diffArgv])
      else .ret (diff.take 10000)
        (t ++ [.exec diffArgv, .println [str "Warning: Diff too large, using partial diff."]]) := by
  simp only [getDiff, GetDiff, run_bind, run_runCommand, hexec, run_pure, GetMaxDiffSize, MaxDiffSize]
  split_ifs with h1 h2 h2
  · omega
  · simp [run_bind, run_emit, run_pure]
  · rfl
  · omega

/-! ### `BuildPrompt` -/

theorem sprintf_nil : Sprintf [] [] = some [] := by
  rw [Sprintf.eq_def]; rfl

theorem sprintf_cons (c : Nat) (rest : GoString) (args : List GoString) (hc : c ≠ 37) :
    Sprintf (c :: rest) args = (Sprintf rest args).map fun out => c :: out := by
  rw [Sprintf.eq_def]
  simp only [if_neg hc]

theorem sprintf_verb (rest a : GoString) (args : List GoString) :
    Sprintf (37 :: 115 :: rest) (a :: args) = (Sprintf rest args).map fun out => a ++ out := by
  rw [Sprintf.eq_def]
  simp

theorem sprintf_text (lit rest : GoString) (args : List GoString) (h : 37 ∉ lit) :
    Sprintf (lit ++ rest) args = (Sprintf rest args).map fun out => lit ++ out := by
  induction lit with
  | nil => simp
  | cons c lit ih =>
    simp only [List.mem_cons, not_or] at h
    have hc : c ≠ 37 := fun hc => h.1 hc.symm
    rw [List.cons_append, sprintf_cons _ _ _ hc, ih h.2, Option.map_map]
    rfl

set_option maxRecDepth 100000 in
theorem promptTemplate_parts :
    promptTemplate = promptHead ++ 37 :: 115 :: (promptMiddle ++ 37 :: 115 :: ([10] ++ [])) := by
  decide

set_option maxRecDepth 100000 in
theorem promptHead_plain : (37 : Nat) ∉ promptHead := by decide

set_option maxRecDepth 100000 in
theorem promptMiddle_eq : promptMiddle = str "\"\n\nCode diff (partial):\n" := by decide

set_option maxRecDepth 100000 in
theorem promptHead_suffix : str "User explanation (in Turkish):\n\"" <:+ promptHead := by decide

theorem buildPrompt_eq (explanation diff : GoString) :
    BuildPrompt explanation diff
      = promptHead ++ explanation ++ promptMiddle ++ diff ++ str "\n" := by
  have hm : (37 : Nat) ∉ promptMiddle := by rw [promptMiddle_eq]; decide
  have h10 : (37 : Nat) ∉ [10] := by decide
  have hnl : str "\n" = [10] := by decide
  have hs : Sprintf promptTemplate [explanation, diff]
      = some (promptHead ++ explanation ++ promptMiddle ++ diff ++ [10]) := by
    rw [promptTemplate_parts, sprintf_text _ _ _ promptHead_plain]
    rw [sprintf_verb, sprintf_text _ _ _ hm, sprintf_verb, sprintf_text _ _ _ h10, sprintf_nil]
    simp
  rw [BuildPrompt, hs, hnl]
  rfl

/-! ### `makeGeminiRequest` -/

theorem run_GetAPIKey (env : Env) (t : Trace) :
    GetAPIKey env t = .ret (env.getenv EnvKeyGeminiAPI) t := rfl

theorem run_httpDo (req : HttpRequest) (env : Env) (t : Trace) :
    httpDo req env t = .ret (env.httpDo t req) (t ++ [.http req]) := rfl

/-- The request `makeGeminiRequest` sends for a prompt. -/
theorem makeGeminiRequest_run (prompt : GoString) (env : Env) (t : Trace) :
    (∃ err, makeGeminiRequest prompt env t = .ret ([], some err) t) ∨
    ∃ req, 
      makeGeminiRequest prompt env t =
        .ret (match (env.httpDo t req).doErr with
          | some err => ([], some (.wrap (str "error making request: %w") err))
          | none =>
            match (env.httpDo t req).readErr with
            | some err => ([], some (.wrap (str "error reading response: %w") err))
            | none =>
              if (env.httpDo t req).StatusCode ≠ 200 then
                ([], some (.errorf (str "API request failed with status %d: %s")
                  [.int (env.httpDo t req).StatusCode, .string (env.httpDo t req).body]))
              else
                match (env.unmarshal (env.httpDo t req).body).2 with
                | some err => ([], some (.wrap (str "error unmarshaling response: %w") err))
                | none =>
                  if (env.unmarshal (env.httpDo t req).body).1.Candidates.length = 0 ∨
                      ((env.unmarshal (env.httpDo t req).body).1.Candidates.getD 0 ⟨[]⟩).Parts.length = 0 then
                    ([], some (.errorf (str "no response from Gemini API") []))
                  else
                    (((env.unmarshal (env.httpDo t req).body).1.Candidates.getD 0 ⟨[]⟩).Parts.getD 0 [], none))
          (t ++ [.http req]) := by
  simp only [makeGeminiRequest, run_bind, run_GetAPIKey, run_getEnv, run_pure]
  by_cases hkey : env.getenv EnvKeyGeminiAPI = []
  · left; simp [hkey, run_pure]
  · simp only [if_neg hkey, run_bind, run_getEnv]
    generalize env.marshal { Contents := [{ Parts := [{ Text := prompt }] }] } = mres
    rcases mres with ⟨body, _ | merr⟩
    swap
    · left; exact ⟨_, rfl⟩
    simp only []
    rcases hnew : env.newRequest
        { method := str "POST", url := geminiEndpoint, headers := [], body := body } with _ | nerr
    swap
    · left; exact ⟨_, rfl⟩
    right
    refine ⟨{ method := str "POST", url := geminiEndpoint,
              headers := [(str "Content-Type", str "application/json"),
                          (str "X-goog-api-key", env.getenv EnvKeyGeminiAPI)],
              body := body }, ?_⟩
    simp only [run_bind, run_httpDo]
    generalize env.httpDo t _ = res
    rcases res with ⟨_ | derr, status, rbody, _ | rerr⟩ <;> simp only [] <;> try rfl
    by_cases hst : status = 200
    · simp only [hst, ne_eq, not_true_eq_false, if_false]
      generalize env.unmarshal rbody = ures
      rcases ures with ⟨resp, _ | uerr⟩ <;> simp only [] <;> try rfl
      split_ifs <;> rfl
    · simp only [ne_eq, hst, not_false_eq_true, if_true]
      rfl

theorem makeGeminiRequest_sent (prompt : GoString) (env : Env) (t : Trace) (req : HttpRequest)
    (hsent : (makeGeminiRequest prompt env t).events = t ++ [.http req]) :
    makeGeminiRequest prompt env t =
        .ret (match (env.httpDo t req).doErr with
          | some err => ([], some (.wrap (str "error making request: %w") err))
          | none =>
            match (env.httpDo t req).readErr with
            | some err => ([], some (.wrap (str "error reading response: %w") err))
            | none =>
              if (env.httpDo t req).StatusCode ≠ 200 then
                ([], some (.errorf (str "API request failed with status %d: %s")
                  [.int (env.httpDo t req).StatusCode, .string (env.httpDo t req).body]))
              else
                match (env.unmarshal (env.httpDo t req).body).2 with
                | some err => ([], some (.wrap (str "error unmarshaling response: %w") err))
                | none =>
                  if (env.unmarshal (env.httpDo t req).body).1.Candidates.length = 0 ∨
                      ((env.unmarshal (env.httpDo t req).body).1.Candidates.getD 0 ⟨[]⟩).Parts.length = 0 then
                    ([], some (.errorf (str "no response from Gemini API") []))
                  else
                    (((env.unmarshal (env.httpDo t req).body).1.Candidates.getD 0 ⟨[]⟩).Parts.getD 0 [], none))
          (t ++ [.http req]) := by
  rcases makeGeminiRequest_run prompt env t with ⟨err, h⟩ | ⟨req2, h⟩
  · rw [h] at hsent
    simp [Outcome.events] at hsent
  · have h2 := h
    rw [h] at hsent
    simp only [Outcome.events, List.append_cancel_left_eq, List.cons.injEq, Event.http.injEq,
      and_true] at hsent
    subst hsent
    exact h2

/-- C5: once the request has been sent, `makeGeminiRequest` (and `CallAI`)
returns the empty string with a non-nil error whenever the status code is not
200, whatever the body holds, and also whenever the decoded candidate list is
empty or its first candidate has no parts. -/
theorem makeGeminiRequest_rejects (prompt : GoString) (env : Env) (t : Trace) (req : HttpRequest)
    (hsent : (makeGeminiRequest prompt env t).events = t ++ [.http req])
    (hbad : (env.httpDo t req).StatusCode ≠ 200 ∨
      (env.unmarshal (env.httpDo t req).body).1.Candidates = [] ∨
      ∃ c cs, (env.unmarshal (env.httpDo t req).body).1.Candidates = c :: cs ∧ c.Parts = []) :
    ∃ err, makeGeminiRequest prompt env t = .ret ([], some err) (t ++ [.http req]) ∧
      CallAI prompt env t = .ret ([], some err) (t ++ [.http req]) := by
  unfold CallAI
  rw [makeGeminiRequest_sent prompt env t req hsent]
  rcases (env.httpDo t req).doErr with _ | derr
  swap
  · exact ⟨_, rfl, rfl⟩
  rcases (env.httpDo t req).readErr with _ | rerr
  swap
  · exact ⟨_, rfl, rfl⟩
  by_cases hst : (env.httpDo t req).StatusCode = 200
  swap
  · simp only [ne_eq, hst, not_false_eq_true, if_true]
    exact ⟨_, rfl, rfl⟩
  simp only [hst, ne_eq, not_true_eq_false, if_false]
  rcases hbad with h | h | ⟨c, cs, hc, hp⟩
  · exact absurd hst h
  · rcases (env.unmarshal (env.httpDo t req).body).2 with _ | uerr
    · simp only [h, List.length_nil, true_or, if_true]
      exact ⟨_, rfl, rfl⟩
    · exact ⟨_, rfl, rfl⟩
  · rcases (env.unmarshal (env.httpDo t req).body).2 with _ | uerr
    · simp only [hc, List.getD_cons_zero, hp, List.length_nil, or_true, if_true]
      exact ⟨_, rfl, rfl⟩
    · exact ⟨_, rfl, rfl⟩

theorem makeGeminiRequest_rejects_witness :
    (makeGeminiRequest (str "p") (answering 500 ⟨[⟨[str "feat: x"]⟩]⟩) []).events
        = [] ++ [.http sampleRequest] ∧
      ∃ err, makeGeminiRequest (str "p") (answering 500 ⟨[⟨[str "feat: x"]⟩]⟩) []
          = .ret ([], some err) ([] ++ [.http sampleRequest]) ∧
        CallAI (str "p") (answering 500 ⟨[⟨[str "feat: x"]⟩]⟩) []
          = .ret ([], some err) ([] ++ [.http sampleRequest]) :=
  ⟨by decide,
    makeGeminiRequest_rejects (str "p") (answering 500 ⟨[⟨[str "feat: x"]⟩]⟩) [] sampleRequest
      (by decide) (Or.inl (by decide))⟩

/-- C6: for a response with status 200 whose decoded body has a first
candidate with a first part, `makeGeminiRequest` (and `CallAI`) returns the
text of that part as it is, with a nil error, whatever the other candidates and
parts are. -/
theorem makeGeminiRequest_first_text (prompt : GoString) (env : Env) (t : Trace)
    (req : HttpRequest) (c : Candidate) (cs : List Candidate) (p : GoString) (ps : List GoString)
    (hsent : (makeGeminiRequest prompt env t).events = t ++ [.http req])
    (hdo : (env.httpDo t req).doErr = none) (hread : (env.httpDo t req).readErr = none)
    (hst : (env.httpDo t req).StatusCode = 200)
    (hdec : (env.unmarshal (env.httpDo t req).body).2 = none)
    (hc : (env.unmarshal (env.httpDo t req).body).1.Candidates = c :: cs)
    (hp : c.Parts = p :: ps) :
    makeGeminiRequest prompt env t = .ret (p, none) (t ++ [.http req]) ∧
      CallAI prompt env t = .ret (p, none) (t ++ [.http req]) := by
  unfold CallAI
  rw [makeGeminiRequest_sent prompt env t req hsent]
  simp [hdo, hread, hst, hdec, hc, hp]

theorem makeGeminiRequest_first_text_witness :
    makeGeminiRequest (str "p")
        (answering 200 ⟨[⟨[str " feat: x \n", str "second"]⟩, ⟨[str "other"]⟩]⟩) []
      = .ret (str " feat: x \n", none) ([] ++ [.http sampleRequest]) ∧
    CallAI (str "p")
        (answering 200 ⟨[⟨[str " feat: x \n", str "second"]⟩, ⟨[str "other"]⟩]⟩) []
      = .ret (str " feat: x \n", none) ([] ++ [.http sampleRequest]) :=
  makeGeminiRequest_first_text (str "p")
    (answering 200 ⟨[⟨[str " feat: x \n", str "second"]⟩, ⟨[str "other"]⟩]⟩) [] sampleRequest
    ⟨[str " feat: x \n", str "second"]⟩ [⟨[str "other"]⟩] (str " feat: x \n") [str "second"]
    (by decide) (by decide) (by decide) (by decide) (by decide) (by decide) (by decide)

/-! ### The loading screen -/

theorem loading_fold_ext (env : Env) (msgs : List ExtMsg) (m : loadingModel) :
    let m1 := (msgs.map Msg.ext).foldl (fun m msg => (loadingModel.Update env m msg).1) m
    m1.err = m.err ∧ m1.result = m.result ∧ m1.done = m.done := by
  induction msgs generalizing m with
  | nil => exact ⟨rfl, rfl, rfl⟩
  | cons x xs ih =>
    simp only [List.map_cons, List.foldl_cons]
    have h := ih (loadingModel.Update env m (.ext x)).1
    have hx : (loadingModel.Update env m (.ext x)).1.err = m.err ∧
        (loadingModel.Update env m (.ext x)).1.result = m.result ∧
        (loadingModel.Update env m (.ext x)).1.done = m.done := by
      cases x <;> simp only [loadingModel.Update] <;> (try split_ifs) <;> simp
    exact ⟨h.1.trans hx.1, h.2.1.trans hx.2.1, h.2.2.trans hx.2.2⟩

theorem progress_fold_ext (env : Env) (msgs : List ExtMsg) (m : progressModel) :
    let m1 := (msgs.map Msg.ext).foldl (fun m msg => (progressModel.Update env m msg).1) m
    m1.err = m.err ∧ m1.result = m.result ∧ m1.done = m.done := by
  induction msgs generalizing m with
  | nil => exact ⟨rfl, rfl, rfl⟩
  | cons x xs ih =>
    simp only [List.map_cons, List.foldl_cons]
    have h := ih (progressModel.Update env m (.ext x)).1
    have hx : (progressModel.Update env m (.ext x)).1.err = m.err ∧
        (progressModel.Update env m (.ext x)).1.result = m.result ∧
        (progressModel.Update env m (.ext x)).1.done = m.done := by
      cases x <;> simp only [progressModel.Update] <;> (try split_ifs) <;> simp
    exact ⟨h.1.trans hx.1, h.2.1.trans hx.2.1, h.2.2.trans hx.2.2⟩

theorem withLoadingInternal_run (callback : Prog (GoString × Option Error)) (fastMode : Bool)
    (env : Env) (t : Trace) :
    withLoadingInternal callback fastMode env t =
      match loadingOutcome callback fastMode env t with
      | .exit c t1 => .exit c t1
      | .ret o t1 =>
        .ret (match o.runErr with
          | some e => ([], some (.wrap (str "failed to run loading UI: %w") e))
          | none =>
            match o.err with
            | some e => ([], some e)
            | none => (o.result, none)) t1 := by
  cases fastMode
  · simp only [withLoadingInternal, loadingOutcome, run_bind, run_getEnv, Bool.false_eq_true,
      if_false]
    rcases runProgram false (newProgressModel env callback) progressModel.Update callback env t
      with ⟨⟨m, _ | re⟩, t1⟩ | ⟨c, t1⟩
    · simp only []
      rcases m.err with _ | e <;> rfl
    · rfl
    · rfl
  · simp only [withLoadingInternal, loadingOutcome, run_bind, run_getEnv, if_true]
    rcases runProgram true (newLoadingModel env callback) loadingModel.Update callback env t
      with ⟨⟨m, _ | re⟩, t1⟩ | ⟨c, t1⟩
    · simp only []
      rcases m.err with _ | e <;> rfl
    · rfl
    · rfl

theorem loadingOutcome_not_started (callback : Prog (GoString × Option Error))
    (fastMode : Bool) (env : Env) (t : Trace) (hs : (env.tea t).started = false) :
    loadingOutcome callback fastMode env t =
      .ret ⟨(env.tea t).runErr, none, [], false⟩ (t ++ [.teaRun fastMode]) := by
  cases fastMode <;>
    simp only [loadingOutcome, runProgram, hs, Bool.false_eq_true, if_false, if_true] <;> rfl

theorem loadingOutcome_interrupted (callback : Prog (GoString × Option Error)) (fastMode : Bool)
    (env : Env) (t : Trace) (hs : (env.tea t).started = true)
    (hd : (env.tea t).delivered = false) :
    loadingOutcome callback fastMode env t =
      match callback env (t ++ [.teaRun fastMode]) with
      | .ret _ t2 => .ret ⟨(env.tea t).runErr, none, [], false⟩ t2
      | .exit c t2 => .exit c t2 := by
  cases fastMode
  · simp only [loadingOutcome, runProgram, hs, hd, Bool.false_eq_true, if_false, if_true]
    rcases callback env (t ++ [Event.teaRun false]) with ⟨res, t2⟩ | ⟨c, t2⟩
    · have h := progress_fold_ext env (env.tea t).before (newProgressModel env callback)
      simp only [newProgressModel] at h ⊢
      rw [h.1, h.2.1, h.2.2]
    · rfl
  · simp only [loadingOutcome, runProgram, hs, hd, Bool.false_eq_true, if_false, if_true]
    rcases callback env (t ++ [Event.teaRun true]) with ⟨res, t2⟩ | ⟨c, t2⟩
    · have h := loading_fold_ext env (env.tea t).before (newLoadingModel env callback)
      simp only [newLoadingModel] at h ⊢
      rw [h.1, h.2.1, h.2.2]
    · rfl

theorem loadingOutcome_delivered (callback : Prog (GoString × Option Error)) (fastMode : Bool)
    (env : Env) (t t2 : Trace) (res : GoString × Option Error)
    (hs : (env.tea t).started = true) (hd : (env.tea t).delivered = true)
    (hcb : callback env (t ++ [.teaRun fastMode]) = .ret res t2) :
    loadingOutcome callback fastMode env t =
      .ret ⟨(env.tea t).runErr, res.2, if res.2 = none then res.1 else [],
        if res.2 = none then true else false⟩ t2 := by
  cases fastMode
  · simp only [loadingOutcome, runProgram, hs, hd, Bool.false_eq_true, if_false, if_true, hcb]
    have h := progress_fold_ext env (env.tea t).after
      (progressModel.Update env ((List.map Msg.ext (env.tea t).before).foldl
        (fun m msg => (progressModel.Update env m msg).1) (newProgressModel env callback))
        (callbackMsg res)).1
    have h0 := progress_fold_ext env (env.tea t).before (newProgressModel env callback)
    simp only at h h0
    rw [h.1, h.2.1, h.2.2]
    generalize (List.map Msg.ext (env.tea t).before).foldl
        (fun m msg => (progressModel.Update env m msg).1) (newProgressModel env callback) = mb
      at h0 ⊢
    obtain ⟨h1, h2, h3⟩ := h0
    rcases res with ⟨v, _ | e⟩
    · simp only [callbackMsg, progressModel.Update, h1, newProgressModel, if_true]
    · simp only [callbackMsg, progressModel.Update, h2, h3, newProgressModel]
      rfl
  · simp only [loadingOutcome, runProgram, hs, hd, if_true, hcb]
    have h := loading_fold_ext env (env.tea t).after
      (loadingModel.Update env ((List.map Msg.ext (env.tea t).before).foldl
        (fun m msg => (loadingModel.Update env m msg).1) (newLoadingModel env callback))
        (callbackMsg res)).1
    have h0 := loading_fold_ext env (env.tea t).before (newLoadingModel env callback)
    simp only at h h0
    rw [h.1, h.2.1, h.2.2]
    generalize (List.map Msg.ext (env.tea t).before).foldl
        (fun m msg => (loadingModel.Update env m msg).1) (newLoadingModel env callback) = mb
      at h0 ⊢
    obtain ⟨h1, h2, h3⟩ := h0
    rcases res with ⟨v, _ | e⟩
    · simp only [callbackMsg, loadingModel.Update, h1, newLoadingModel, if_true]
    · simp only [callbackMsg, loadingModel.Update, h2, h3, newLoadingModel]
      rfl

/-! ### The events of the stages before the confirmation -/

theorem addsOnly_bind {α β : Type} {Q : Event → Prop} {m : Prog α} {f : α → Prog β} {env : Env}
    (hm : addsOnly Q m env) (hf : ∀ a, addsOnly Q (f a) env) : addsOnly Q (m >>= f) env := by
  intro t ht e he
  rw [run_bind] at he
  have h1 := hm t ht
  rcases h : m env t with ⟨a, t1⟩ | ⟨c, t1⟩
  · rw [h] at he h1
    exact hf a t1 h1 e he
  · rw [h] at he h1
    exact h1 e he

theorem addsOnly_pure {α : Type} {Q : Event → Prop} (a : α) (env : Env) :
    addsOnly Q (pure a : Prog α) env := fun _ ht e he => ht e he

theorem addsOnly_emit {Q : Event → Prop} (ev : Event) (env : Env) (h : Q ev) :
    addsOnly Q (emit ev) env := by
  intro t ht e he
  simp only [run_emit, Outcome.events, List.mem_append, List.mem_singleton] at he
  rcases he with he | rfl
  · exact ht e he
  · exact h

theorem addsOnly_osExit {α : Type} {Q : Event → Prop} (c : Int) (env : Env) :
    addsOnly Q (osExit c : Prog α) env := fun _ ht e he => ht e he

theorem addsOnly_getEnv {Q : Event → Prop} (env : Env) : addsOnly Q getEnv env :=
  fun _ ht e he => ht e he

theorem addsOnly_GetAPIKey {Q : Event → Prop} (env : Env) : addsOnly Q GetAPIKey env :=
  fun _ ht e he => ht e he

theorem addsOnly_runCommand {Q : Event → Prop} (argv : List GoString) (env : Env)
    (h : Q (.exec argv)) : addsOnly Q (runCommand argv) env := by
  intro t ht e he
  simp only [run_runCommand, Outcome.events, List.mem_append, List.mem_singleton] at he
  rcases he with he | rfl
  · exact ht e he
  · exact h

theorem addsOnly_ShowError (fast : Bool) (format : GoString) (args : List Operand) (env : Env) :
    addsOnly (stageEvent fast) (ShowError format args) env :=
  addsOnly_bind (addsOnly_emit _ env ⟨format, rfl⟩) fun _ => addsOnly_osExit 1 env

theorem addsOnly_ShowFiles (fast : Bool) (files : List GoString) (env : Env) :
    addsOnly (stageEvent fast) (ShowFiles files) env := by
  intro t ht e he
  simp only [ShowFiles, Outcome.events, List.mem_append, List.mem_map] at he
  rcases he with he | ⟨f, _, rfl⟩
  · exact ht e he
  · trivial

theorem addsOnly_validateEnvironment (fast : Bool) (env : Env) :
    addsOnly (stageEvent fast) validateEnvironment env := by
  unfold validateEnvironment
  refine addsOnly_bind (addsOnly_GetAPIKey env) fun apiKey => ?_
  split_ifs
  · exact addsOnly_bind (addsOnly_ShowError fast _ _ env) fun _ => addsOnly_osExit 1 env
  · exact addsOnly_pure _ env

theorem addsOnly_GetStagedFiles (fast : Bool) (env : Env) :
    addsOnly (stageEvent fast) GetStagedFiles env := by
  unfold GetStagedFiles
  refine addsOnly_bind (addsOnly_runCommand _ env (Or.inl rfl)) fun r => ?_
  split
  · exact addsOnly_pure _ env
  · dsimp only
    split_ifs <;> exact addsOnly_pure _ env

theorem addsOnly_GetUnstagedFiles (fast : Bool) (env : Env) :
    addsOnly (stageEvent fast) GetUnstagedFiles env := by
  unfold GetUnstagedFiles
  refine addsOnly_bind (addsOnly_runCommand _ env (Or.inr (Or.inl rfl))) fun r => ?_
  split
  · exact addsOnly_pure _ env
  · dsimp only
    split_ifs <;> exact addsOnly_pure _ env

theorem addsOnly_GetDiff (fast : Bool) (env : Env) :
    addsOnly (stageEvent fast) GetDiff env := by
  unfold GetDiff
  refine addsOnly_bind (addsOnly_runCommand _ env (Or.inr (Or.inr rfl))) fun r => ?_
  split <;> exact addsOnly_pure _ env

theorem addsOnly_handleUnstagedChanges (fast : Bool) (env : Env) :
    addsOnly (stageEvent fast) handleUnstagedChanges env := by
  unfold handleUnstagedChanges
  refine addsOnly_bind (addsOnly_GetUnstagedFiles fast env) fun r => ?_
  have hrest : ∀ y : Unit, addsOnly (stageEvent fast) (do
      emit (Event.println [str "\nUnstaged files:"])
      ShowFiles r.1
      emit (Event.println [str "\nPlease add the files to the staging area and try again."])
      (osExit 1 : Prog Unit)) env := by
    intro _
    refine addsOnly_bind (addsOnly_emit _ env trivial) fun _ => ?_
    refine addsOnly_bind (addsOnly_ShowFiles fast _ env) fun _ => ?_
    exact addsOnly_bind (addsOnly_emit _ env trivial) fun _ => addsOnly_osExit 1 env
  dsimp only
  split
  · exact addsOnly_bind (addsOnly_ShowError fast _ _ env) hrest
  · exact addsOnly_bind (addsOnly_pure _ env) hrest

theorem addsOnly_getStagedFiles (fast : Bool) (env : Env) :
    addsOnly (stageEvent fast) getStagedFiles env := by
  unfold getStagedFiles
  refine addsOnly_bind (addsOnly_GetStagedFiles fast env) fun r => ?_
  dsimp only
  split
  · exact addsOnly_bind (addsOnly_handleUnstagedChanges fast env) fun _ => addsOnly_pure _ env
  · exact addsOnly_bind (addsOnly_pure _ env) fun _ => addsOnly_pure _ env

theorem addsOnly_getExplanation (fast : Bool) (env : Env) :
    addsOnly (stageEvent fast) (getExplanation fast) env := by
  unfold getExplanation
  cases fast
  · simp only [Bool.false_eq_true, if_false]
    refine addsOnly_bind ?_ fun r => ?_
    · intro t ht e he
      simp only [GetExplanation, Outcome.events, List.mem_append, List.mem_singleton] at he
      rcases he with he | rfl
      · exact ht e he
      · rfl
    · dsimp only
      split
      · exact addsOnly_bind (addsOnly_ShowError false _ _ env) fun _ => addsOnly_pure _ env
      · exact addsOnly_bind (addsOnly_pure _ env) fun _ => addsOnly_pure _ env
  · simp only [if_true]
    exact addsOnly_pure _ env

theorem addsOnly_getDiff (fast : Bool) (env : Env) :
    addsOnly (stageEvent fast) getDiff env := by
  unfold getDiff
  refine addsOnly_bind (addsOnly_GetDiff fast env) fun r => ?_
  have hrest : ∀ y : Unit, addsOnly (stageEvent fast)
      (if r.1.length > GetMaxDiffSize then do
        emit (Event.println [str "Warning: Diff too large, using partial diff."])
        pure (List.take GetMaxDiffSize r.1)
      else (pure r.1 : Prog GoString)) env := by
    intro _
    split_ifs
    · exact addsOnly_bind (addsOnly_emit _ env trivial) fun _ => addsOnly_pure _ env
    · exact addsOnly_pure _ env
  dsimp only
  split
  · exact addsOnly_bind (addsOnly_ShowError fast _ _ env) hrest
  · exact addsOnly_bind (addsOnly_pure _ env) hrest

theorem addsOnly_CallAI (fast : Bool) (prompt : GoString) (env : Env) :
    addsOnly (stageEvent fast) (CallAI prompt) env := by
  intro t ht e he
  unfold CallAI at he
  rcases makeGeminiRequest_run prompt env t with ⟨err, h⟩ | ⟨req, h⟩
  · rw [h] at he; exact ht e he
  · rw [h] at he
    simp only [Outcome.events, List.mem_append, List.mem_singleton] at he
    rcases he with he | rfl
    · exact ht e he
    · trivial

theorem addsOnly_runProgram {M : Type} (fast fm : Bool) (init : M)
    (update : Env → M → Msg → M × Cmd) (callback : Prog (GoString × Option Error)) (env : Env)
    (hcb : addsOnly (stageEvent fast) callback env) :
    addsOnly (stageEvent fast) (runProgram fm init update callback) env := by
  intro t ht e he
  have ht1 : ∀ e ∈ t ++ [Event.teaRun fm], stageEvent fast e := by
    intro e he
    simp only [List.mem_append, List.mem_singleton] at he
    rcases he with he | rfl
    · exact ht e he
    · trivial
  unfold runProgram at he
  simp only at he
  by_cases hs : (env.tea t).started = true
  · rw [if_pos hs] at he
    have h2 := hcb _ ht1
    rcases hc : callback env (t ++ [Event.teaRun fm]) with ⟨res, t2⟩ | ⟨c, t2⟩
    · rw [hc] at he h2
      simp only [] at he
      by_cases hd : (env.tea t).delivered = true
      · rw [if_pos hd] at he; exact h2 e he
      · rw [if_neg hd] at he; exact h2 e he
    · rw [hc] at he h2; exact h2 e he
  · rw [if_neg hs] at he; exact ht1 e he

theorem addsOnly_withLoadingInternal (fast fm : Bool) (callback : Prog (GoString × Option Error))
    (env : Env) (hcb : addsOnly (stageEvent fast) callback env) :
    addsOnly (stageEvent fast) (withLoadingInternal callback fm) env := by
  unfold withLoadingInternal
  refine addsOnly_bind (addsOnly_getEnv env) fun env1 => ?_
  split_ifs
  · refine addsOnly_bind (addsOnly_runProgram fast _ _ _ _ env hcb) fun r => ?_
    split
    · exact addsOnly_pure _ env
    · dsimp only
      split <;> exact addsOnly_pure _ env
  · refine addsOnly_bind (addsOnly_runProgram fast _ _ _ _ env hcb) fun r => ?_
    split
    · exact addsOnly_pure _ env
    · dsimp only
      split <;> exact addsOnly_pure _ env

theorem addsOnly_generateCommitMessage (fast fm : Bool) (explanation diff : GoString) (env : Env) :
    addsOnly (stageEvent fast) (generateCommitMessage explanation diff fm) env := by
  unfold generateCommitMessage
  refine addsOnly_bind ?_ fun r => ?_
  · split_ifs
    · exact addsOnly_withLoadingInternal fast true _ env (addsOnly_CallAI fast _ env)
    · exact addsOnly_withLoadingInternal fast false _ env (addsOnly_CallAI fast _ env)
  · dsimp only
    split
    · exact addsOnly_bind (addsOnly_ShowError fast _ _ env) fun _ => addsOnly_pure _ env
    · exact addsOnly_bind (addsOnly_pure _ env) fun _ => addsOnly_pure _ env

/-! ### `Root` -/

theorem run_parseFlags (env : Env) (t : Trace) :
    parseFlags env t =
      match env.flagExit with
      | some code => .exit code t
      | none => .ret { fastMode := env.fastFlag } t := rfl

theorem root_fast_shape (env : Env) (hfast : env.fastFlag = true) :
    ∃ t0, (∀ e ∈ t0, stageEvent true e) ∧
      ((∃ c, Root env [] = .exit c t0) ∨
        ∃ t1 diff t2 message,
          getDiff env t1 = .ret diff t2 ∧
          generateCommitMessage fastExplanation diff true env t2 = .ret message t0 ∧
          Root env [] = .ret () (t0 ++ [.println [message]])) := by
  have hnil : ∀ e ∈ ([] : Trace), stageEvent true e := fun e he => absurd he (List.not_mem_nil e)
  unfold Root
  simp only [run_bind, run_parseFlags]
  rcases env.flagExit with _ | code
  swap
  · exact ⟨[], hnil, Or.inl ⟨code, rfl⟩⟩
  simp only [hfast]
  have h1 := addsOnly_validateEnvironment true env [] hnil
  rcases hv : validateEnvironment env [] with ⟨_, t1⟩ | ⟨c, t1⟩
  swap
  · rw [hv] at h1
    exact ⟨t1, h1, Or.inl ⟨c, rfl⟩⟩
  rw [hv] at h1
  simp only [Outcome.events] at h1
  simp only []
  have h2 := addsOnly_getStagedFiles true env t1 h1
  rcases hs : getStagedFiles env t1 with ⟨files, t2⟩ | ⟨c, t2⟩
  swap
  · rw [hs] at h2
    exact ⟨t2, h2, Or.inl ⟨c, rfl⟩⟩
  rw [hs] at h2
  simp only [Outcome.events] at h2
  simp only [Bool.not_true, Bool.false_eq_true, if_false, run_bind, run_pure, if_true]
  have h3 := addsOnly_getExplanation true env t2 h2
  have hexp : getExplanation true env t2 = .ret fastExplanation t2 := rfl
  rw [hexp] at h3 ⊢
  simp only [Outcome.events] at h3
  simp only []
  have h4 := addsOnly_getDiff true env t2 h2
  rcases hd : getDiff env t2 with ⟨diff, t3⟩ | ⟨c, t3⟩
  swap
  · rw [hd] at h4
    exact ⟨t3, h4, Or.inl ⟨c, rfl⟩⟩
  rw [hd] at h4
  simp only [Outcome.events] at h4
  simp only []
  have h5 := addsOnly_generateCommitMessage true true fastExplanation diff env t3 h4
  rcases hg : generateCommitMessage fastExplanation diff true env t3 with ⟨message, t4⟩ | ⟨c, t4⟩
  swap
  · rw [hg] at h5
    exact ⟨t4, h5, Or.inl ⟨c, rfl⟩⟩
  rw [hg] at h5
  simp only [Outcome.events] at h5
  exact ⟨t4, h5, Or.inr ⟨t2, diff, t3, message, hd, hg, rfl⟩⟩

theorem run_ShowError (format : GoString) (args : List Operand) (env : Env) (t : Trace) :
    ShowError format args env t = .exit 1 (t ++ [.printf (errorFormat format) args]) := rfl

theorem run_ConfirmCommit (message : GoString) (env : Env) (t : Trace) :
    ConfirmCommit message env t =
      .ret (env.confirm (t ++ [.printf generatedFormat [.val (.string message)]]))
        (t ++ [.printf generatedFormat [.val (.string message)]] ++ [.confirm confirmTitle]) := rfl

theorem run_handleCommit (message : GoString) (env : Env) (t : Trace) :
    handleCommit message env t =
      if message = [] then
        .exit 1 (t ++ [.commitCalled message,
          .printf (errorFormat (str "creating commit: %v")) [.err ErrEmptyCommitMessage]])
      else
        match (env.exec (t ++ [.commitCalled message]) (commitArgv message)).err with
        | some err =>
          .exit 1 (t ++ [.commitCalled message, .exec (commitArgv message),
            .printf (errorFormat (str "creating commit: %v")) [.err err]])
        | none => .ret () (t ++ [.commitCalled message, .exec (commitArgv message), successEvent]) := by
  simp only [handleCommit, run_bind, commit_run, commitArgv]
  split_ifs with h
  · simp [run_bind, run_ShowError]
  · rcases (env.exec (t ++ [Event.commitCalled message])
        [str "git", str "commit", str "-m", message]).err with _ | err
    · simp [run_bind, run_pure, ShowSuccess, run_emit, successEvent]
    · simp [run_bind, run_ShowError]

theorem root_interactive_shape (env : Env) (hfast : env.fastFlag = false) :
    ∃ t0, (∀ e ∈ t0, stageEvent false e) ∧
      ((∃ c, Root env [] = .exit c t0) ∨
        ∃ explanation t1 diff t2 message,
          getDiff env t1 = .ret diff t2 ∧
          generateCommitMessage explanation diff false env t2 = .ret message t0 ∧
          Root env [] = confirmOutcome env message t0) := by
  have hnil : ∀ e ∈ ([] : Trace), stageEvent false e := fun e he => absurd he (List.not_mem_nil e)
  unfold Root
  simp only [run_bind, run_parseFlags]
  rcases env.flagExit with _ | code
  swap
  · exact ⟨[], hnil, Or.inl ⟨code, rfl⟩⟩
  simp only [hfast]
  have h1 := addsOnly_validateEnvironment false env [] hnil
  rcases hv : validateEnvironment env [] with ⟨_, t1⟩ | ⟨c, t1⟩
  swap
  · rw [hv] at h1
    exact ⟨t1, h1, Or.inl ⟨c, rfl⟩⟩
  rw [hv] at h1
  simp only [Outcome.events] at h1
  simp only []
  have h2 := addsOnly_getStagedFiles false env t1 h1
  rcases hs : getStagedFiles env t1 with ⟨files, t2⟩ | ⟨c, t2⟩
  swap
  · rw [hs] at h2
    exact ⟨t2, h2, Or.inl ⟨c, rfl⟩⟩
  rw [hs] at h2
  simp only [Outcome.events] at h2
  simp only [Bool.not_false, if_true, run_bind, run_emit]
  have h2b : ∀ e ∈ (ShowFiles files env (t2 ++ [Event.println [str "\nStaged files:"]])).events,
      stageEvent false e := by
    apply addsOnly_ShowFiles false files env
    intro e he
    simp only [List.mem_append, List.mem_singleton] at he
    rcases he with he | rfl
    · exact h2 e he
    · trivial
  rcases hsf : ShowFiles files env (t2 ++ [Event.println [str "\nStaged files:"]])
    with ⟨_, t2b⟩ | ⟨c, t2b⟩
  swap
  · rw [hsf] at h2b
    exact ⟨t2b, h2b, Or.inl ⟨c, rfl⟩⟩
  rw [hsf] at h2b
  simp only [Outcome.events] at h2b
  simp only []
  have h3 := addsOnly_getExplanation false env t2b h2b
  rcases he : getExplanation false env t2b with ⟨explanation, t3⟩ | ⟨c, t3⟩
  swap
  · rw [he] at h3
    exact ⟨t3, h3, Or.inl ⟨c, rfl⟩⟩
  rw [he] at h3
  simp only [Outcome.events] at h3
  simp only []
  have h4 := addsOnly_getDiff false env t3 h3
  rcases hd : getDiff env t3 with ⟨diff, t4⟩ | ⟨c, t4⟩
  swap
  · rw [hd] at h4
    exact ⟨t4, h4, Or.inl ⟨c, rfl⟩⟩
  rw [hd] at h4
  simp only [Outcome.events] at h4
  simp only []
  have h5 := addsOnly_generateCommitMessage false false explanation diff env t4 h4
  rcases hg : generateCommitMessage explanation diff false env t4 with ⟨message, t5⟩ | ⟨c, t5⟩
  swap
  · rw [hg] at h5
    exact ⟨t5, h5, Or.inl ⟨c, rfl⟩⟩
  rw [hg] at h5
  simp only [Outcome.events] at h5
  refine ⟨t5, h5, Or.inr ⟨explanation, t3, diff, t4, message, hd, hg, ?_⟩⟩
  simp only [Bool.false_eq_true, if_false, run_bind, run_ConfirmCommit, confirmOutcome]
  rcases env.confirm (t5 ++ [Event.printf generatedFormat [Operand.val (Value.string message)]])
    with ⟨b, _ | err⟩
  · cases b
    · simp [run_bind, run_pure, run_emit]
    · simp only [run_bind, run_pure, Bool.not_true, Bool.false_eq_true, if_false, run_handleCommit]
  · simp [run_bind, run_ShowError]

theorem successFormat_ne_error (f : GoString) : successFormat ≠ errorFormat f := by
  have h1 : successFormat = 10 :: 195 :: successFormat.drop 2 := by decide
  have h2 : str "\nError: " = 10 :: 69 :: str "rror: " := by decide
  intro h
  rw [h1, errorFormat, h2] at h
  simp at h

theorem successFormat_ne_generated : successFormat ≠ generatedFormat := by decide

theorem stage_not_success (fast : Bool) (args : List Operand)
    (h : stageEvent fast (.printf successFormat args)) : False := by
  obtain ⟨f, hf⟩ := h
  exact successFormat_ne_error f hf

theorem stage_filter_commit (fast : Bool) (t : Trace) (h : ∀ e ∈ t, stageEvent fast e) :
    t.filter Event.isCommitCall = [] := by
  rw [List.filter_eq_nil_iff]
  intro e he
  have := h e he
  cases e <;> simp [Event.isCommitCall]
  exact this

theorem commitArgv_not_stage (fast : Bool) (m : GoString)
    (h : stageEvent fast (.exec (commitArgv m))) : False := by
  have hd : str "commit" ≠ str "diff" := by decide
  rcases h with h | h | h <;>
    simp [commitArgv, stagedArgv, unstagedArgv, diffArgv, hd] at h

/-- The place of an event is fixed by the events around it: if `a` has a
property that no event of `l1` and `l2` has, a prefix ending in an event with
the property ends at `a`. -/
theorem prefix_at_unique (P : Event → Prop) (l1 l2 pre : Trace) (a b : Event)
    (h1 : ∀ e ∈ l1, ¬ P e) (h2 : ∀ e ∈ l2, ¬ P e) (hb : P b)
    (hpre : pre ++ [b] <+: l1 ++ a :: l2) : pre = l1 := by
  obtain ⟨s, hs⟩ := hpre
  rw [List.append_assoc, List.singleton_append] at hs
  rcases List.append_eq_append_iff.mp hs with ⟨c, hc1, hc2⟩ | ⟨c, hc1, hc2⟩
  · cases c with
    | nil => simpa using hc1.symm
    | cons x c =>
      exfalso
      simp only [List.cons_append, List.cons.injEq] at hc2
      have hmem : b ∈ l1 := by rw [hc1, hc2.1]; simp
      exact h1 b hmem hb
  · cases c with
    | nil => simpa using hc1
    | cons x c =>
      exfalso
      simp only [List.cons_append, List.cons.injEq] at hc2
      have hmem : b ∈ l2 := by rw [hc2.2]; simp
      exact h2 b hmem hb

/-! ### The contracts of the pipeline -/

theorem runesLoop_stable (n : Nat) (s : GoString) (hn : s.length ≤ n) :
    runesLoop (n + 1) s = runesLoop n s := by
  induction n generalizing s with
  | zero =>
    have : s = [] := List.length_eq_zero.mp (by omega)
    subst this; rfl
  | succ n ih =>
    cases s with
    | nil => rfl
    | cons b rest =>
      have hpos := decode_width_pos (b :: rest) (by simp)
      have hlen : ((b :: rest).drop (DecodeRuneInString (b :: rest)).2).length ≤ n := by
        simp only [List.length_drop, List.length_cons] at hn ⊢
        omega
      show _ :: runesLoop (n + 1) _ = _ :: runesLoop n _
      rw [ih _ hlen]

/-- What `generateCommitMessage` returns: the text `CallAI` returned when its
message was delivered to the loading screen, and the empty string when the
loading screen ended before. -/
theorem generateCommitMessage_result (explanation diff message : GoString) (fastMode : Bool)
    (env : Env) (t t3 : Trace)
    (h : generateCommitMessage explanation diff fastMode env t = .ret message t3) :
    ((env.tea t).started = true ∧ (env.tea t).delivered = true ∧
        CallAI (BuildPrompt explanation diff) env (t ++ [.teaRun fastMode])
          = .ret (message, none) t3) ∨
      (((env.tea t).started = false ∨ (env.tea t).delivered = false) ∧ message = []) := by
  have hw : (if fastMode = true then WithFastLoading (CallAI (BuildPrompt explanation diff))
      else WithLoading (CallAI (BuildPrompt explanation diff)))
      = withLoadingInternal (CallAI (BuildPrompt explanation diff)) fastMode := by
    cases fastMode <;> rfl
  simp only [generateCommitMessage, run_bind, hw, withLoadingInternal_run] at h
  rcases hst : (env.tea t).started with _ | _
  · right
    rw [loadingOutcome_not_started _ _ _ _ hst] at h
    simp only [] at h
    rcases hre : (env.tea t).runErr with _ | re
    · rw [hre] at h
      simp only [run_bind, run_pure, Outcome.ret.injEq] at h
      exact ⟨Or.inl rfl, h.1.symm⟩
    · rw [hre] at h
      simp [run_bind, run_ShowError] at h
  rcases hdel : (env.tea t).delivered with _ | _
  · right
    rw [loadingOutcome_interrupted _ _ _ _ hst hdel] at h
    rcases hcb : CallAI (BuildPrompt explanation diff) env (t ++ [.teaRun fastMode])
      with ⟨res, t2⟩ | ⟨c, t2⟩
    · rw [hcb] at h
      simp only [] at h
      rcases hre : (env.tea t).runErr with _ | re
      · rw [hre] at h
        simp only [run_bind, run_pure, Outcome.ret.injEq] at h
        exact ⟨Or.inr rfl, h.1.symm⟩
      · rw [hre] at h
        simp [run_bind, run_ShowError] at h
    · rw [hcb] at h
      simp at h
  · left
    refine ⟨rfl, rfl, ?_⟩
    rcases hcb : CallAI (BuildPrompt explanation diff) env (t ++ [.teaRun fastMode])
      with ⟨res, t2⟩ | ⟨c, t2⟩
    · rw [loadingOutcome_delivered _ _ _ _ _ _ hst hdel hcb] at h
      simp only [] at h
      rcases hre : (env.tea t).runErr with _ | re
      · rw [hre] at h
        rcases res with ⟨v, _ | e⟩
        · simp only [if_true, run_bind, run_pure, Outcome.ret.injEq] at h
          rw [hcb, h.1, h.2]
        · simp [run_bind, run_ShowError] at h
      · rw [hre] at h
        simp [run_bind, run_ShowError] at h
    · exfalso
      simp only [loadingOutcome, runProgram, hst, hdel, if_true] at h
      have hcb2 : CallAI (BuildPrompt explanation diff) env (t ++ [Event.teaRun fastMode])
          = Outcome.exit c t2 := hcb
      cases fastMode <;> simp [hcb2] at h

set_option maxRecDepth 100000 in
theorem root_fast_run :
    Root (workingEnv true) [] =
      .ret () [.exec stagedArgv, .exec diffArgv, .teaRun true, .http sampleRequest,
        .println [str "feat: add x"]] := by
  decide

set_option maxRecDepth 100000 in
theorem root_interactive_run :
    Root (workingEnv false) [] =
      .ret () [.exec stagedArgv, .println [str "\nStaged files:"],
        .builtinPrintln [str " -", str "main.go"],
        .input (str "What did you do in these files?"),
        .exec diffArgv, .teaRun false, .http sampleRequest,
        .printf generatedFormat [.val (.string (str "feat: add x"))],
        .confirm confirmTitle, .commitCalled (str "feat: add x"),
        .exec (commitArgv (str "feat: add x")), successEvent] := by
  decide

/-- C1: `git.Commit` returns `ErrEmptyCommitMessage` without running any
command when the message is empty; for a non-empty message it runs
`git commit -m message` exactly once and returns the error of that run (nil
when the run succeeds). -/
theorem commit_contract (message : GoString) (env : Env) (t : Trace) :
    Commit message env t =
      if message = [] then
        .ret (some ErrEmptyCommitMessage) (t ++ [.commitCalled message])
      else
        .ret (env.exec (t ++ [.commitCalled message]) [str "git", str "commit", str "-m", message]).err
          (t ++ [.commitCalled message, .exec [str "git", str "commit", str "-m", message]]) :=
  commit_run message env t

/-- C3: when `git diff --cached` has run without error, `getDiff` returns the
diff unchanged and prints nothing if its length is at most `MaxDiffSize`
(10000); otherwise it prints the warning and returns the first 10000 bytes.
In both cases the result is the prefix of the diff of length
`min (len diff) 10000`, at most 10000 bytes (hence at most 10000 characters). -/
theorem getDiff_truncates (env : Env) (t : Trace) (diff : GoString)
    (hexec : env.exec t [str "git", str "diff", str "--cached"] = ⟨diff, none⟩) :
    (diff.length ≤ 10000 →
        getDiff env t = .ret diff (t ++ [.exec [str "git", str "diff", str "--cached"]])) ∧
      (10000 < diff.length →
        getDiff env t = .ret (diff.take 10000)
          (t ++ [.exec [str "git", str "diff", str "--cached"],
            .println [str "Warning: Diff too large, using partial diff."]])) ∧
      ∃ r t1, getDiff env t = .ret r t1 ∧ r <+: diff ∧
        r.length = min diff.length 10000 ∧ r.length ≤ 10000 ∧ GetMaxDiffSize = 10000 := by
  have h := getDiff_run env t diff hexec
  rw [h]
  refine ⟨fun hle => by rw [if_pos hle]; rfl, fun hgt => by rw [if_neg (by omega)]; rfl, ?_⟩
  split_ifs with hle
  · exact ⟨diff, _, rfl, List.prefix_refl _, by omega, hle, rfl⟩
  · exact ⟨diff.take 10000, _, rfl, List.take_prefix _ _, by rw [List.length_take]; omega,
      by rw [List.length_take]; omega, rfl⟩

theorem getDiff_truncates_witness :
    (gitPrints (List.replicate 10001 97)).exec [] [str "git", str "diff", str "--cached"]
        = ⟨List.replicate 10001 97, none⟩ ∧
      getDiff (gitPrints (List.replicate 10001 97)) [] =
        .ret (List.replicate 10000 97)
          [.exec [str "git", str "diff", str "--cached"],
            .println [str "Warning: Diff too large, using partial diff."]] := by
  refine ⟨rfl, ?_⟩
  have h := (getDiff_truncates (gitPrints (List.replicate 10001 97)) [] (List.replicate 10001 97)
    rfl).2.1 (by rw [List.length_replicate]; omega)
  rw [h, List.take_replicate, show min 10000 10001 = 10000 from rfl, List.nil_append]

/-- C4: `BuildPrompt explanation diff` is the fixed text `promptHead`, the
explanation as it is, the fixed text `promptMiddle`, the diff as it is, and a
newline; its length is the sum of the five lengths.  `promptHead` ends with
the line `User explanation (in Turkish):` and an opening double quote, and
`promptMiddle` is a closing double quote followed by the header
`Code diff (partial):`. -/
theorem buildPrompt_verbatim (explanation diff : GoString) :
    BuildPrompt explanation diff
        = promptHead ++ explanation ++ promptMiddle ++ diff ++ str "\n" ∧
      (BuildPrompt explanation diff).length
        = promptHead.length + promptMiddle.length + 1 + explanation.length + diff.length ∧
      str "User explanation (in Turkish):\n\"" <:+ promptHead ∧
      promptMiddle = str "\"\n\nCode diff (partial):\n" := by
  refine ⟨buildPrompt_eq explanation diff, ?_, promptHead_suffix, promptMiddle_eq⟩
  rw [buildPrompt_eq]
  have hnl : (str "\n").length = 1 := by decide
  simp only [List.length_append, hnl]
  omega

/-- C10, as stated, fails: when `Run` itself fails, `withLoadingInternal`
returns an error although the field `err` of the final model is not set. -/
theorem withLoading_run_error :
    withLoadingInternal (CallAI (str "p")) true noTerminalEnv [] =
        .ret ([], some (.wrap (str "failed to run loading UI: %w") (.external 1))) [.teaRun true] ∧
      loadingOutcome (CallAI (str "p")) true noTerminalEnv [] =
        .ret { runErr := some (.external 1), err := none, result := [], done := false }
          [.teaRun true] := by
  decide

/-- C10, amended: `Update` on a Ctrl-C key returns the model unchanged
together with `tea.Quit`, for both models.  When the callback's message was
not delivered before `Run` returned (the user interrupted, or the runtime never
reached `Init`) and `Run` reports no error, `withLoadingInternal` returns the
empty string with a nil error, the same value as for a delivered callback that
returned an empty message.  In general it returns the wrapped error of `Run`
when `Run` fails, else the `err` of the final model when it is set, and else
the model's `result`, whatever `done` is. -/
theorem withLoading_contract (callback : Prog (GoString × Option Error)) (fastMode : Bool)
    (env : Env) (t : Trace) :
    (∀ m : loadingModel, loadingModel.Update env m (.ext (.key .KeyCtrlC)) = (m, .Quit)) ∧
      (∀ m : progressModel, progressModel.Update env m (.ext (.key .KeyCtrlC)) = (m, .Quit)) ∧
      ((env.tea t).started = true → (env.tea t).delivered = false → (env.tea t).runErr = none →
        withLoadingInternal callback fastMode env t =
          match callback env (t ++ [.teaRun fastMode]) with
          | .ret _ t2 => .ret ([], none) t2
          | .exit c t2 => .exit c t2) ∧
      ((env.tea t).started = false → (env.tea t).runErr = none →
        withLoadingInternal callback fastMode env t = .ret ([], none) (t ++ [.teaRun fastMode])) ∧
      (∀ t2, (env.tea t).started = true → (env.tea t).delivered = true →
        (env.tea t).runErr = none →
        callback env (t ++ [.teaRun fastMode]) = .ret ([], none) t2 →
        withLoadingInternal callback fastMode env t = .ret ([], none) t2) ∧
      withLoadingInternal callback fastMode env t =
        match loadingOutcome callback fastMode env t with
        | .exit c t1 => .exit c t1
        | .ret o t1 =>
          .ret (match o.runErr with
            | some e => ([], some (.wrap (str "failed to run loading UI: %w") e))
            | none =>
              match o.err with
              | some e => ([], some e)
              | none => (o.result, none)) t1 := by
  refine ⟨fun m => rfl, fun m => rfl, ?_, ?_, ?_, withLoadingInternal_run callback fastMode env t⟩
  · intro hs hd hr
    rw [withLoadingInternal_run, loadingOutcome_interrupted callback fastMode env t hs hd, hr]
    rcases callback env (t ++ [Event.teaRun fastMode]) with ⟨res, t2⟩ | ⟨c, t2⟩ <;> rfl
  · intro hs hr
    rw [withLoadingInternal_run, loadingOutcome_not_started callback fastMode env t hs, hr]
  · intro t2 hs hd hr hcb
    rw [withLoadingInternal_run, loadingOutcome_delivered callback fastMode env t t2 _ hs hd hcb,
      hr]
    rfl

theorem withLoading_contract_witness :
    withLoadingInternal (CallAI (str "p")) true interruptedEnv []
        = .ret ([], none) [.teaRun true, .http sampleRequest] ∧
      withLoadingInternal (CallAI (str "p")) false interruptedEnv []
        = .ret ([], none) [.teaRun false, .http sampleRequest] :=
  ⟨(withLoading_contract (CallAI (str "p")) true interruptedEnv []).2.2.1 rfl rfl rfl,
    (withLoading_contract (CallAI (str "p")) false interruptedEnv []).2.2.1 rfl rfl rfl⟩

/-- C8: in fast mode no run of `Root` shows the input form or the confirm
form, calls `git.Commit` or runs `git commit`; a run that reaches the end has
generated its message from the fixed explanation and ends by printing that
message. -/
theorem root_fast_mode (env : Env) (hfast : env.fastFlag = true) :
    (∀ e ∈ (Root env []).events,
        (∀ title, e ≠ .input title) ∧ (∀ title, e ≠ .confirm title) ∧
        (∀ m, e ≠ .commitCalled m) ∧ (∀ m, e ≠ .exec [str "git", str "commit", str "-m", m])) ∧
      (∀ tr, Root env [] = .ret () tr →
        ∃ t1 diff t2 message t3,
          getDiff env t1 = .ret diff t2 ∧
          generateCommitMessage (str "Generate a commit message based on the changes in the diff")
            diff true env t2 = .ret message t3 ∧
          tr = t3 ++ [.println [message]]) := by
  obtain ⟨t0, h0, hshape⟩ := root_fast_shape env hfast
  have hstage : ∀ e ∈ (Root env []).events, stageEvent true e := by
    rcases hshape with ⟨c, hc⟩ | ⟨t1, diff, t2, message, _, _, hr⟩
    · rw [hc]; exact h0
    · rw [hr]
      intro e he
      simp only [Outcome.events, List.mem_append, List.mem_singleton] at he
      rcases he with he | rfl
      · exact h0 e he
      · trivial
  constructor
  · intro e he
    have hs := hstage e he
    refine ⟨?_, ?_, ?_, ?_⟩
    · intro title h; subst h; simp [stageEvent] at hs
    · intro title h; subst h; exact hs
    · intro m h; subst h; exact hs
    · intro m h; subst h; exact commitArgv_not_stage true m hs
  · intro tr htr
    rcases hshape with ⟨c, hc⟩ | ⟨t1, diff, t2, message, hd, hg, hr⟩
    · rw [hc] at htr; cases htr
    · rw [hr] at htr
      cases htr
      exact ⟨t1, diff, t2, message, t0, hd, hg, rfl⟩

theorem confirm_prefix_iff (env : Env) (l1 rest : Trace) (title : GoString)
    (h1 : ∀ e ∈ l1, ¬ ∃ ttl, e = Event.confirm ttl)
    (h2 : ∀ e ∈ rest, ¬ ∃ ttl, e = Event.confirm ttl) :
    (∃ pre, pre ++ [Event.confirm title] <+: l1 ++ Event.confirm title :: rest ∧
        env.confirm pre = (true, none)) ↔ env.confirm l1 = (true, none) := by
  constructor
  · rintro ⟨pre, hpre, hc⟩
    have := prefix_at_unique (fun e => ∃ ttl, e = Event.confirm ttl) l1 rest pre
      (Event.confirm title) (Event.confirm title) h1 h2 ⟨title, rfl⟩ hpre
    rw [← this]; exact hc
  · intro hc
    exact ⟨l1, ⟨rest, by simp⟩, hc⟩

/-- C9, as stated, fails: the user presses Ctrl-C on the loading screen and
then confirms.  The AI call returns `feat: add x`, but its message is never
delivered, and `git.Commit` is called with the empty string. -/
theorem root_commit_after_interrupt :
    Root ctrlCEnv [] =
        .exit 1 [.exec stagedArgv, .println [str "\nStaged files:"],
          .builtinPrintln [str " -", str "main.go"],
          .input (str "What did you do in these files?"),
          .exec diffArgv, .teaRun false, .http sampleRequest,
          .printf generatedFormat [.val (.string [])],
          .confirm confirmTitle, .commitCalled [],
          .printf (errorFormat (str "creating commit: %v")) [.err ErrEmptyCommitMessage]] ∧
      CallAI (BuildPrompt (str "x eklendi") (str "+x\n")) ctrlCEnv
          [.exec stagedArgv, .println [str "\nStaged files:"],
            .builtinPrintln [str " -", str "main.go"],
            .input (str "What did you do in these files?"),
            .exec diffArgv, .teaRun false] =
        .ret (str "feat: add x", none)
          [.exec stagedArgv, .println [str "\nStaged files:"],
            .builtinPrintln [str " -", str "main.go"],
            .input (str "What did you do in these files?"),
            .exec diffArgv, .teaRun false, .http sampleRequest] ∧
      str "feat: add x" ≠ [] := by
  decide

/-- C9, amended: outside fast mode, `Root` calls `git.Commit` exactly when the
confirm form returned `true` without error; it calls it at most once, with the
message returned by `generateCommitMessage` in this run, which is the text
returned by the AI call when that was delivered to the loading screen and the
empty string when the loading screen ended before; and the success report is
printed only as the last event of a run that returns, after a `git commit`
that returned no error. -/
theorem root_interactive_mode (env : Env) (hfast : env.fastFlag = false) :
    ((∃ m, Event.commitCalled m ∈ (Root env []).events) ↔
        ∃ pre, pre ++ [.confirm (str "Use this commit message and commit?")]
            <+: (Root env []).events ∧ env.confirm pre = (true, none)) ∧
      (((Root env []).events.filter Event.isCommitCall).length ≤ 1 ∧
        ∀ m, Event.commitCalled m ∈ (Root env []).events →
          ∃ explanation t1 diff t2 t3,
            getDiff env t1 = .ret diff t2 ∧
            generateCommitMessage explanation diff false env t2 = .ret m t3 ∧
            t3 <+: (Root env []).events ∧
            (((env.tea t2).started = true ∧ (env.tea t2).delivered = true ∧
                CallAI (BuildPrompt explanation diff) env (t2 ++ [.teaRun false])
                  = .ret (m, none) t3) ∨
              (((env.tea t2).started = false ∨ (env.tea t2).delivered = false) ∧ m = []))) ∧
      (∀ args, Event.printf successFormat args ∈ (Root env []).events →
        ∃ pre m,
          Root env [] = .ret () (pre ++ [.commitCalled m,
            .exec [str "git", str "commit", str "-m", m],
            .printf successFormat [.val (.string (str "Commit created successfully!"))]]) ∧
          (env.exec (pre ++ [.commitCalled m]) [str "git", str "commit", str "-m", m]).err
            = none) := by
  obtain ⟨t0, h0, hshape⟩ := root_interactive_shape env hfast
  have hnc : ∀ e ∈ t0, ¬ ∃ title, e = Event.confirm title := by
    rintro e he ⟨title, rfl⟩
    exact h0 _ he
  have hncall : ∀ m, Event.commitCalled m ∉ t0 := fun m hm => h0 _ hm
  have hnsucc : ∀ args, Event.printf successFormat args ∉ t0 :=
    fun args hm => stage_not_success false args (h0 _ hm)
  have hfilter := stage_filter_commit false t0 h0
  rcases hshape with ⟨c, hc⟩ | ⟨explanation, t1, diff, t2, message, hd, hg, hr⟩
  · rw [hc]
    simp only [Outcome.events]
    refine ⟨⟨?_, ?_⟩, ⟨by simp [hfilter], ?_⟩, ?_⟩
    · rintro ⟨m, hm⟩; exact absurd hm (hncall m)
    · rintro ⟨pre, ⟨s, hs⟩, _⟩
      exfalso
      refine hnc (.confirm (str "Use this commit message and commit?")) ?_ ⟨_, rfl⟩
      rw [← hs]; simp
    · intro m hm; exact absurd hm (hncall m)
    · intro args hm; exact absurd hm (hnsucc args)
  · rw [hr]
    have hl1 : ∀ e ∈ t0 ++ [Event.printf generatedFormat [Operand.val (Value.string message)]],
        ¬ ∃ ttl, e = Event.confirm ttl := by
      intro e he
      simp only [List.mem_append, List.mem_singleton] at he
      rcases he with he | rfl
      · exact hnc e he
      · rintro ⟨ttl, h⟩; cases h
    have hlink := generateCommitMessage_result explanation diff message false env t2 t0 hg
    have hgen : ∃ explanation t1 diff t2 t3,
        getDiff env t1 = .ret diff t2 ∧
        generateCommitMessage explanation diff false env t2 = .ret message t3 ∧ t3 = t0 ∧
        (((env.tea t2).started = true ∧ (env.tea t2).delivered = true ∧
            CallAI (BuildPrompt explanation diff) env (t2 ++ [.teaRun false])
              = .ret (message, none) t3) ∨
          (((env.tea t2).started = false ∨ (env.tea t2).delivered = false) ∧ message = [])) :=
      ⟨explanation, t1, diff, t2, t0, hd, hg, rfl, hlink⟩
    have hsg : successFormat ≠ generatedFormat := successFormat_ne_generated
    have hse : ∀ f, successFormat ≠ errorFormat f := successFormat_ne_error
    simp only [confirmOutcome]
    rcases hcf : env.confirm (t0 ++ [Event.printf generatedFormat [Operand.val (Value.string message)]])
      with ⟨b, _ | err⟩
    · cases b
      · -- the user declines
        simp only [Outcome.events]
        refine ⟨?_, ⟨?_, ?_⟩, ?_⟩
        · rw [show confirmTitle = str "Use this commit message and commit?" from rfl,
            List.append_assoc, List.singleton_append,
            confirm_prefix_iff env _ _ _ hl1 (by simp), hcf]
          simp [hncall]
        · simp [List.filter_append, hfilter, Event.isCommitCall]
        · intro m hm
          simp [hncall] at hm
        · intro args hm
          simp [hnsucc, hsg] at hm
      · -- the user confirms
        have hpre : (t0 ++ [Event.printf generatedFormat [Operand.val (Value.string message)]] ++
            [Event.confirm confirmTitle]).IsPrefix
            (t0 ++ [Event.printf generatedFormat [Operand.val (Value.string message)]] ++
            [Event.confirm confirmTitle]) := List.prefix_refl _
        simp only []
        split_ifs with hmsg
        · -- the empty message is refused by Commit
          simp only [Outcome.events]
          refine ⟨?_, ⟨?_, ?_⟩, ?_⟩
          · rw [show confirmTitle = str "Use this commit message and commit?" from rfl,
              List.append_assoc, List.singleton_append,
              confirm_prefix_iff env _ _ _ hl1 (by simp), hcf]
            simp
          · simp [List.filter_append, hfilter, Event.isCommitCall]
          · intro m hm
            simp [hncall] at hm
            subst hm
            obtain ⟨explanation, t1, diff, t2, t3, h1, h2, h3, h4⟩ := hgen
            exact ⟨explanation, t1, diff, t2, t3, h1, h2, by rw [h3]; exact ⟨_, by simp; rfl⟩, h4⟩
          · intro args hm
            simp [hnsucc, hsg, hse] at hm
        · rcases hex : (env.exec
              (t0 ++ [Event.printf generatedFormat [Operand.val (Value.string message)]] ++
                [Event.confirm confirmTitle] ++ [Event.commitCalled message])
              (commitArgv message)).err with _ | cerr
          · -- the commit succeeds
            simp only [Outcome.events]
            refine ⟨?_, ⟨?_, ?_⟩, ?_⟩
            · rw [show confirmTitle = str "Use this commit message and commit?" from rfl,
                List.append_assoc, List.singleton_append,
                confirm_prefix_iff env _ _ _ hl1 (by simp [successEvent]), hcf]
              simp only [iff_true]
              exact ⟨message, by simp⟩
            · simp [List.filter_append, hfilter, Event.isCommitCall, successEvent]
            · intro m hm
              simp [hncall, successEvent] at hm
              subst hm
              obtain ⟨explanation, t1, diff, t2, t3, h1, h2, h3, h4⟩ := hgen
              exact ⟨explanation, t1, diff, t2, t3, h1, h2, by rw [h3]; exact ⟨_, by simp; rfl⟩, h4⟩
            · intro args _
              exact ⟨_, message, rfl, hex⟩
          · -- the commit fails
            simp only [Outcome.events]
            refine ⟨?_, ⟨?_, ?_⟩, ?_⟩
            · rw [show confirmTitle = str "Use this commit message and commit?" from rfl,
                List.append_assoc, List.singleton_append,
                confirm_prefix_iff env _ _ _ hl1 (by simp), hcf]
              simp
            · simp [List.filter_append, hfilter, Event.isCommitCall]
            · intro m hm
              simp [hncall] at hm
              subst hm
              obtain ⟨explanation, t1, diff, t2, t3, h1, h2, h3, h4⟩ := hgen
              exact ⟨explanation, t1, diff, t2, t3, h1, h2, by rw [h3]; exact ⟨_, by simp; rfl⟩, h4⟩
            · intro args hm
              simp [hnsucc, hsg, hse] at hm
    · -- the form fails
      simp only [Outcome.events]
      refine ⟨?_, ⟨?_, ?_⟩, ?_⟩
      · rw [show confirmTitle = str "Use this commit message and commit?" from rfl,
          List.append_assoc, List.singleton_append,
          confirm_prefix_iff env _ _ _ hl1 (by simp), hcf]
        simp [hncall]
      · simp [List.filter_append, hfilter, Event.isCommitCall]
      · intro m hm
        simp [hncall] at hm
      · intro args hm
        simp [hnsucc, hsg, hse] at hm

theorem root_fast_mode_witness :
    (workingEnv true).fastFlag = true ∧
      ∃ t1 diff t2 message t3,
        getDiff (workingEnv true) t1 = .ret diff t2 ∧
        generateCommitMessage (str "Generate a commit message based on the changes in the diff")
          diff true (workingEnv true) t2 = .ret message t3 ∧
        [Event.exec stagedArgv, .exec diffArgv, .teaRun true, .http sampleRequest,
          .println [str "feat: add x"]] = t3 ++ [.println [message]] :=
  ⟨rfl, (root_fast_mode (workingEnv true) rfl).2 _ root_fast_run⟩

theorem root_interactive_mode_witness :
    (workingEnv false).fastFlag = false ∧
      ∃ pre m,
        Root (workingEnv false) [] = .ret () (pre ++ [.commitCalled m,
          .exec [str "git", str "commit", str "-m", m],
          .printf successFormat [.val (.string (str "Commit created successfully!"))]]) ∧
        ((workingEnv false).exec (pre ++ [.commitCalled m])
          [str "git", str "commit", str "-m", m]).err = none :=
  ⟨rfl, (root_interactive_mode (workingEnv false) rfl).2.2
    [.val (.string (str "Commit created successfully!"))]
    (by rw [root_interactive_run]; decide)⟩

end AiCommits
